import Mathlib

/-!
# PathFinder: formal model of `src/app.py`

A shallow embedding of the PathFinder routing service (`app.py`) in Lean 4.

Modelling conventions:

* Python floats are modelled by exact rationals (`ℚ`); the transcendental
  haversine distance is modelled over the reals (`ℝ`).
* A Python tuple of floats (a graph node) is modelled as `List ℚ`; the
  key-parsing code `tuple(map(float, node.strip('()').split(', ')))` can
  produce tuples of any arity, so nodes are lists rather than pairs.
* Exceptions are modelled by `Except`/`Option`; an exception escaping the
  request handler (e.g. `ValueError` from `float(...)`) is the `valueError`
  response.
* `networkx.Graph` is modelled by `WGraph`: an insertion-ordered duplicate-free
  node list plus an undirected edge list carrying weights.
* `scipy.spatial.KDTree.query` performs an exact nearest-neighbour search in
  Euclidean (Minkowski p = 2) distance over the raw coordinate tuples; it is
  modelled by an argmin over squared Euclidean distance (same argmin).
* `nx.dijkstra_path` is modelled by an executable Dijkstra search `dijkstra`
  over the weighted graph, generic in an ordered weight type.
-/

/-- A graph node: Python tuple of floats, modelled as a list of rationals. -/
abbrev Node : Type := List ℚ

/-- Squared Euclidean distance between two coordinate tuples
(the metric minimised by `scipy.spatial.KDTree.query`; `query` minimises the
Euclidean distance itself, which has the same argmin as its square). -/
def sqDist : Node → Node → ℚ
  | a :: p, b :: q => (a - b) ^ 2 + sqDist p q
  | _, _ => 0

/-- Scan of `KDTree.query`: running best node and best squared distance. -/
def fcpGo (q : Node) : List Node → Node → ℚ → Node
  | [], best, _ => best
  | m :: rest, best, bd =>
    if sqDist q m < bd then fcpGo q rest m (sqDist q m) else fcpGo q rest best bd

/-- `find_closest_point` (app.py:86-99): query the KD-tree built from the
graph's node snapshot and index back into the node list.  The KD-tree data and
`node_list` are the same enumeration `list(G.nodes())`, so the result is the
snapshot element nearest to `point` in Euclidean distance (first wins on ties).
`none` models the error raised on an empty snapshot. -/
def find_closest_point (snapshot : List Node) (point : Node) : Option Node :=
  match snapshot with
  | [] => none
  | n :: rest => some (fcpGo point rest n (sqDist point n))

/-! ## Key parsing (`create_graph`, app.py:54) -/

/-- Construction-time failure: `float(tok)` raised `ValueError`
(the only construction-time exception `create_graph` can raise). -/
inductive ParseError : Type where
  | notAFloat (tok : List Char)
deriving DecidableEq, Repr

/-- Python `str.strip('()')`: drop the characters `(` and `)` from both ends. -/
def pyStripParens (cs : List Char) : List Char :=
  ((cs.dropWhile fun c => c = '(' ∨ c = ')').reverse.dropWhile
    fun c => c = '(' ∨ c = ')').reverse

/-- Python `str.split(', ')`: greedy left-to-right split on the
two-character separator `", "`. -/
def splitCommaSpace : List Char → List Char → List (List Char)
  | acc, ',' :: ' ' :: rest => acc.reverse :: splitCommaSpace [] rest
  | acc, c :: rest => splitCommaSpace (c :: acc) rest
  | acc, [] => [acc.reverse]

/-- Decimal digit value. -/
def digitVal? (c : Char) : Option ℕ :=
  if '0' ≤ c ∧ c ≤ '9' then some (c.toNat - '0'.toNat) else none

/-- Accumulate decimal digits: value and number of digits consumed. -/
def takeDigits : List Char → ℕ → ℕ → ℕ × ℕ × List Char
  | c :: rest, v, n =>
    match digitVal? c with
    | some d => takeDigits rest (10 * v + d) (n + 1)
    | none => (v, n, c :: rest)
  | [], v, n => (v, n, [])

/-- Exponent part of a float literal: `e`/`E`, optional sign, digits.
Returns the (signed) exponent, or `none` on a malformed trailing part. -/
def parseExp : List Char → Option ℤ
  | [] => some 0
  | e :: rest =>
    if e = 'e' ∨ e = 'E' then
      let (sgn, rest') : ℤ × List Char :=
        match rest with
        | '-' :: r => (-1, r)
        | '+' :: r => (1, r)
        | r => (1, r)
      match takeDigits rest' 0 0 with
      | (v, n, []) => if n = 0 then none else some (sgn * (v : ℤ))
      | _ => none
    else none

/-- Model of Python `float(tok)` on plain decimal literals
(`[sign] digits [. digits] [exponent]`, at least one digit); returns the exact
rational value.  Non-finite and underscore/whitespace forms are out of scope:
they do not occur in this repository's data format. -/
def pyFloat? (cs : List Char) : Option ℚ :=
  let (sgn, body) : ℚ × List Char :=
    match cs with
    | '-' :: r => (-1, r)
    | '+' :: r => (1, r)
    | r => (1, r)
  let (ip, ni, rest) := takeDigits body 0 0
  match rest with
  | '.' :: r =>
    let (fp, nf, rest') := takeDigits r 0 0
    if ni = 0 ∧ nf = 0 then none
    else
      (parseExp rest').map fun e =>
        (sgn * ((ip : ℚ) + (fp : ℚ) / (10 : ℚ) ^ nf)) * (10 : ℚ) ^ e
  | _ =>
    if ni = 0 then none
    else (parseExp rest).map fun e => (sgn * (ip : ℚ)) * (10 : ℚ) ^ e

/-- `map float` over the split key components; fails at the first component
`float` cannot convert, mirroring the `ValueError` raised there. -/
def parseFloats : List (List Char) → Except ParseError (List ℚ)
  | [] => .ok []
  | t :: ts =>
    match pyFloat? t with
    | none => .error (.notAFloat t)
    | some q =>
      match parseFloats ts with
      | .error e => .error e
      | .ok qs => .ok (q :: qs)

/-- `tuple(map(float, node.strip('()').split(', ')))` (app.py:54). -/
def parseKey (s : String) : Except ParseError Node :=
  parseFloats (splitCommaSpace [] (pyStripParens s.toList))

/-! ## Weighted undirected graph (`networkx.Graph`) -/

/-- `networkx.Graph` with scalar edge weights: insertion-ordered node list
(duplicate-free by construction) and a list of undirected weighted edges,
each unordered pair stored once in its insertion orientation. -/
structure WGraph (α W : Type) where
  nodes : List α
  edges : List (α × α × W)
deriving DecidableEq, Repr

/-- The stored edge `e` carries the unordered pair `{u, v}`. -/
def matchesPair {α W : Type} [DecidableEq α] (u v : α) (e : α × α × W) : Bool :=
  decide ((e.1 = u ∧ e.2.1 = v) ∨ (e.1 = v ∧ e.2.1 = u))

/-- `G.add_node(n)`: a no-op when `n` is already a node. -/
def add_node {α W : Type} [DecidableEq α] (G : WGraph α W) (n : α) : WGraph α W :=
  if n ∈ G.nodes then G else ⟨G.nodes ++ [n], G.edges⟩

/-- Edge insertion proper: overwrite the weight of an existing `{u, v}` edge
(keeping its stored orientation, as the shared networkx attribute dict does),
or append a fresh `(u, v, wt)` edge. -/
def addEdgeRaw {α W : Type} [DecidableEq α] (G : WGraph α W) (u v : α) (wt : W) :
    WGraph α W :=
  if G.edges.any (matchesPair u v) then
    ⟨G.nodes, G.edges.map fun e => if matchesPair u v e then (e.1, e.2.1, wt) else e⟩
  else
    ⟨G.nodes, G.edges ++ [(u, v, wt)]⟩

/-- `G.add_edge(u, v, weight=wt)`: inserts missing endpoints, then inserts or
overwrites the undirected edge. -/
def add_edge {α W : Type} [DecidableEq α] (G : WGraph α W) (u v : α) (wt : W) :
    WGraph α W :=
  addEdgeRaw (add_node (add_node G u) v) u v wt

/-- Undirected edge membership. -/
def WGraph.hasEdge {α W : Type} [DecidableEq α] (G : WGraph α W) (u v : α) : Bool :=
  G.edges.any (matchesPair u v)

/-- Stored weight of the undirected edge `{u, v}`, if present. -/
def weightOf {α W : Type} [DecidableEq α] (G : WGraph α W) (u v : α) : Option W :=
  (G.edges.find? (matchesPair u v)).map fun e => e.2.2

/-- Total weight lookup (only ever read on actual edges). -/
def wOf {α W : Type} [DecidableEq α] [Zero W] (G : WGraph α W) (u v : α) : W :=
  (weightOf G u v).getD 0

/-- Weighted adjacency of `u`: each stored edge incident to `u`, with the
opposite endpoint and the stored weight (`G.adj[u]` in networkx). -/
def adjW {α W : Type} [DecidableEq α] (G : WGraph α W) (u : α) : List (α × W) :=
  G.edges.filterMap fun e =>
    if e.1 = u then some (e.2.1, e.2.2)
    else if e.2.1 = u then some (e.1, e.2.2) else none

/-! ## `create_graph` (app.py:44-60) -/

/-- Inner loop of `create_graph`: `G.add_node(neighbor);
G.add_edge(node, neighbor, weight=calculate_distance(node, neighbor))`,
with the distance metric `d` a parameter of the model. -/
def addNeighbors {W : Type} (d : Node → Node → W) (node : Node) :
    WGraph Node W → List Node → WGraph Node W
  | G, [] => G
  | G, nb :: rest => addNeighbors d node (add_edge (add_node G nb) node nb (d node nb)) rest

/-- Outer loop of `create_graph` over the adjacency items: parse the key
(raising `ParseError` on the first bad component), `G.add_node(node)`, then
process the neighbor list. -/
def create_graph_items {W : Type} (d : Node → Node → W) :
    WGraph Node W → List (String × List Node) → Except ParseError (WGraph Node W)
  | G, [] => .ok G
  | G, (k, nbs) :: rest =>
    match parseKey k with
    | .error e => .error e
    | .ok node => create_graph_items d (addNeighbors d node (add_node G node) nbs) rest

/-- `create_graph(graph_data)` (app.py:44-60): the adjacency mapping is taken
as its ordered item list (keys to neighbor coordinate pairs). -/
def create_graph {W : Type} (d : Node → Node → W)
    (input : List (String × List Node)) : Except ParseError (WGraph Node W) :=
  create_graph_items d ⟨[], []⟩ input

/-- Keys together with neighbor entries, in processing order (key first). -/
def occList : List (Node × List Node) → List Node
  | [] => []
  | (k, nbs) :: rest => (k :: nbs) ++ occList rest

/-- Parsing every key of the adjacency items (the parsing work `create_graph`
interleaves with graph building, staged for specification purposes). -/
def parseItems : List (String × List Node) → Except ParseError (List (Node × List Node))
  | [] => .ok []
  | (k, nbs) :: rest =>
    match parseKey k with
    | .error e => .error e
    | .ok node =>
      match parseItems rest with
      | .error e => .error e
      | .ok ps => .ok ((node, nbs) :: ps)

/-! ## Dijkstra (`nx.dijkstra_path`, app.py:101-115) -/

/-- A settled search entry: node, its tentative (= final) distance, and the
reconstructed node sequence from the source to it. -/
abbrev DEntry (α W : Type) : Type := α × W × List α

/-- Is `v` already settled? -/
def inS {α W : Type} [DecidableEq α] (S : List (DEntry α W)) (v : α) : Bool :=
  S.any fun e => decide (e.1 = v)

/-- All one-edge relaxations out of the settled region: for a settled `u` and
an incident edge to an unsettled `v`, the candidate distance and path via `u`. -/
def candidates {α W : Type} [DecidableEq α] [Add W] (G : WGraph α W)
    (S : List (DEntry α W)) : List (DEntry α W) :=
  S.flatMap fun e =>
    (adjW G e.1).filterMap fun vw =>
      if inS S vw.1 then none else some (vw.1, e.2.1 + vw.2, e.2.2 ++ [vw.1])

/-- Least-distance candidate (the priority-queue pop; first wins on ties). -/
def selectMin {α W : Type} [LinearOrder W] :
    List (DEntry α W) → Option (DEntry α W)
  | [] => none
  | e :: es =>
    match selectMin es with
    | none => some e
    | some m => if e.2.1 ≤ m.2.1 then some e else some m

/-- The Dijkstra main loop: repeatedly settle the least-distance candidate.
Fuel bounds the iteration count; `G.nodes.length` is always enough. -/
def dijkstraLoop {α W : Type} [DecidableEq α] [LinearOrderedAddCommMonoid W]
    (G : WGraph α W) : Nat → List (DEntry α W) → List (DEntry α W)
  | 0, S => S
  | n + 1, S =>
    match selectMin (candidates G S) with
    | none => S
    | some c => dijkstraLoop G n (S ++ [c])

/-- `nx.dijkstra_path(G, source=s, target=t, weight="weight")`: run the search
from `s` and read off the reconstructed path to `t`; `none` models the
`NetworkXNoPath` exception. -/
def dijkstra {α W : Type} [DecidableEq α] [LinearOrderedAddCommMonoid W]
    (G : WGraph α W) (s t : α) : Option (List α) :=
  ((dijkstraLoop G G.nodes.length [(s, 0, [s])]).find? fun e => decide (e.1 = t)).map
    fun e => e.2.2

/-- `find_shortest_path` (app.py:101-115): the `try/except NetworkXNoPath`
wrapper is the `Option` of the model. -/
def find_shortest_path {W : Type} [LinearOrderedAddCommMonoid W]
    (G : WGraph Node W) (s t : Node) : Option (List Node) :=
  dijkstra G s t

/-! ## Path predicates -/

/-- `p` is a walk in `G` from `s` to `t` following existing edges. -/
def IsPath {α W : Type} [DecidableEq α] (G : WGraph α W) (p : List α) (s t : α) : Prop :=
  p ≠ [] ∧ p.head? = some s ∧ p.getLast? = some t ∧
    List.Chain' (fun a b => G.hasEdge a b = true) p

/-- A simple path: a walk without repeated nodes. -/
def IsSimplePath {α W : Type} [DecidableEq α] (G : WGraph α W) (p : List α) (s t : α) : Prop :=
  IsPath G p s t ∧ p.Nodup

/-- Total weight of a walk (sum of the stored weights of consecutive edges). -/
def pathWeight {α W : Type} [DecidableEq α] [Zero W] [Add W] (G : WGraph α W) :
    List α → W
  | u :: v :: rest => wOf G u v + pathWeight G (v :: rest)
  | _ => 0

/-- Distinctness of stored edges as unordered pairs. -/
def pairEq {α W : Type} (e f : α × α × W) : Prop :=
  (e.1 = f.1 ∧ e.2.1 = f.2.1) ∨ (e.1 = f.2.1 ∧ e.2.1 = f.1)

/-- Well-formedness: edge endpoints are nodes; no duplicate unordered pair. -/
def WGraph.WF {α W : Type} (G : WGraph α W) : Prop :=
  (∀ e ∈ G.edges, e.1 ∈ G.nodes ∧ e.2.1 ∈ G.nodes) ∧
    G.edges.Pairwise fun e f => ¬ pairEq e f

/-- Mutual reachability (edges are undirected, so one direction suffices). -/
def Reachable {α W : Type} [DecidableEq α] (G : WGraph α W) (s t : α) : Prop :=
  ∃ p, IsPath G p s t

/-! ## KML generation (`generate_kml_file`, app.py:117-146) -/

/-- A fastkml/shapely geometry: a point or a line string. -/
inductive KGeometry : Type where
  | point (coords : Node)
  | line (coords : List Node)
deriving DecidableEq, Repr

/-- A KML placemark: id, name, geometry. -/
structure KPlacemark : Type where
  pid : String
  pname : String
  geometry : KGeometry
deriving DecidableEq, Repr

/-- The KML document: id, name, appended placemarks. -/
structure KDocument : Type where
  did : String
  dname : String
  placemarks : List KPlacemark
deriving DecidableEq, Repr

/-- `(lon, lat) for lat, lon in shortest_path`: tuple unpacking needs exactly
two components; `none` models the `ValueError` raised otherwise. -/
def swapLatLon : Node → Option Node
  | [a, b] => some [b, a]
  | _ => none

/-- The corrected (longitude, latitude) path (app.py:130). -/
def correctedPath : List Node → Option (List Node)
  | [] => some []
  | n :: rest =>
    match swapLatLon n, correctedPath rest with
    | some m, some ms => some (m :: ms)
    | _, _ => none

/-- One point placemark per path coordinate (app.py:133-137). -/
def pointPlacemarks : List Node → Nat → List KPlacemark
  | [], _ => []
  | c :: rest, i =>
    ⟨"point_" ++ toString i, "Point " ++ toString (i + 1), .point c⟩
      :: pointPlacemarks rest (i + 1)

/-- `generate_kml_file` (app.py:117-146).  `LineString` construction requires
at least two coordinates (shapely raises on exactly one point); `none` models
an escaping exception.  String serialisation (`k.to_string`) writes the stored
coordinate values verbatim, so the document is modelled structurally. -/
def generate_kml_file (shortest_path : List Node) : Option KDocument :=
  match correctedPath shortest_path with
  | none => none
  | some cp =>
    if cp.length = 1 then none
    else
      some ⟨"doc_id", "Shortest Path",
        pointPlacemarks cp 0 ++ [⟨"path", "Shortest Path", .line cp⟩]⟩

/-- Decoding a document: the coordinate list of its line feature. -/
def lineCoordsOf (doc : KDocument) : Option (List Node) :=
  (doc.placemarks.filterMap fun pm =>
    match pm.geometry with
    | .line cs => some cs
    | .point _ => none).head?

/-! ## The HTTP handler (`find_path`, app.py:156-199) -/

/-- A JSON scalar as found under `start`/`end` → `lat`/`lon`. -/
inductive JVal : Type where
  | num (q : ℚ)
  | str (s : String)
  | boolean (b : Bool)
  | null
deriving DecidableEq, Repr

/-- Python `float(x)` on a JSON scalar: numbers pass through, strings are
parsed, booleans coerce, `None` raises. -/
def pyFloatJ : JVal → Option ℚ
  | .num q => some q
  | .str s => pyFloat? s.toList
  | .boolean b => some (if b then 1 else 0)
  | .null => none

/-- The `start`/`end` member of the request body: optional `lat`/`lon` keys. -/
structure PointObj : Type where
  lat? : Option JVal
  lon? : Option JVal
deriving DecidableEq, Repr

/-- The JSON request body: optional `start`/`end` members. -/
structure ReqBody : Type where
  start? : Option PointObj
  end? : Option PointObj
deriving DecidableEq, Repr

/-- The handler's outcome, as the collaborator sees it. -/
inductive Response : Type where
  /-- 200: the path plus the generated KML document. -/
  | ok (path : List Node) (doc : KDocument)
  /-- 400 `Missing data '<key>'`: a `KeyError` for `key` was caught. -/
  | errMissing (key : String)
  /-- 400: start coordinates out of range. -/
  | errInvalidStart
  /-- 400: end coordinates out of range. -/
  | errInvalidEnd
  /-- 404: identical raw start and end points. -/
  | errSamePoint
  /-- 404: both points snapped to the same graph node. -/
  | errTooClose
  /-- 404: no path between the snapped nodes. -/
  | errNoPath
  /-- An uncaught exception escaped the handler (e.g. `ValueError`). -/
  | valueError
deriving DecidableEq, Repr

/-- The shared application state (`app.config`): the graph and the KD-tree
snapshot of its node enumeration. -/
structure ServerState (W : Type) : Type where
  graph : WGraph Node W
  kd_nodes : List Node
deriving DecidableEq, Repr

/-- `create_kd_tree` (app.py:74-84): the KD-tree stores the node coordinates
of `G.nodes()` in enumeration order; that snapshot is the whole model. -/
def create_kd_tree {W : Type} (G : WGraph Node W) : List Node :=
  G.nodes

/-- The before-request initialisation hook (app.py:19-31): build the graph,
then the KD-tree, and publish both; a `ParseError` escapes and nothing is
published. -/
def initApp {W : Type} (d : Node → Node → W) (input : List (String × List Node)) :
    Except ParseError (ServerState W) :=
  match create_graph d input with
  | .error e => .error e
  | .ok G => .ok ⟨G, create_kd_tree G⟩

/-- The phase of `find_path` after both endpoints were snapped
(app.py:186-196). -/
def routeAfterSnap {W : Type} [LinearOrderedAddCommMonoid W] (G : WGraph Node W)
    (start_closest end_closest : Node) : Response :=
  if start_closest = end_closest then .errTooClose
  else
    match find_shortest_path G start_closest end_closest with
    | some p =>
      if p = [] then .errNoPath
      else
        match generate_kml_file p with
        | some doc => .ok p doc
        | none => .valueError
    | none => .errNoPath

/-- `find_path` (app.py:156-199), after the four coordinates were extracted:
range validation, identical-endpoint rejection, snapping, search, encoding. -/
def findPathValidated {W : Type} [LinearOrderedAddCommMonoid W] (st : ServerState W)
    (start_lat start_lon end_lat end_lon : ℚ) : Response :=
  if ¬ (-90 ≤ start_lat ∧ start_lat ≤ 90) ∨ ¬ (-180 ≤ start_lon ∧ start_lon ≤ 180) then
    .errInvalidStart
  else if ¬ (-90 ≤ end_lat ∧ end_lat ≤ 90) ∨ ¬ (-180 ≤ end_lon ∧ end_lon ≤ 180) then
    .errInvalidEnd
  else if (start_lat, start_lon) = (end_lat, end_lon) then .errSamePoint
  else
    match find_closest_point st.kd_nodes [start_lat, start_lon],
        find_closest_point st.kd_nodes [end_lat, end_lon] with
    | some sc, some ec => routeAfterSnap st.graph sc ec
    | _, _ => .valueError

/-- `find_path` (app.py:156-199): sequential extraction
`float(request.json['start']['lat'])`, …; a missing key is the caught
`KeyError`, a failed `float` conversion the uncaught `ValueError`. -/
def find_path {W : Type} [LinearOrderedAddCommMonoid W] (st : ServerState W)
    (body : ReqBody) : Response :=
  match body.start? with
  | none => .errMissing "start"
  | some so =>
    match so.lat? with
    | none => .errMissing "lat"
    | some jsl =>
      match pyFloatJ jsl with
      | none => .valueError
      | some start_lat =>
        match so.lon? with
        | none => .errMissing "lon"
        | some jso =>
          match pyFloatJ jso with
          | none => .valueError
          | some start_lon =>
            match body.end? with
            | none => .errMissing "end"
            | some eo =>
              match eo.lat? with
              | none => .errMissing "lat"
              | some jel =>
                match pyFloatJ jel with
                | none => .valueError
                | some end_lat =>
                  match eo.lon? with
                  | none => .errMissing "lon"
                  | some jeo =>
                    match pyFloatJ jeo with
                    | none => .valueError
                    | some end_lon =>
                      findPathValidated st start_lat start_lon end_lat end_lon

/-- The handler in state-passing form: `find_path` never assigns to
`app.config`, so the shared state is returned unchanged. -/
def find_path_route {W : Type} [LinearOrderedAddCommMonoid W] (st : ServerState W)
    (body : ReqBody) : Response × ServerState W :=
  (find_path st body, st)

/-! ## Haversine (`calculate_distance`, app.py:62-72; the `haversine` package) -/

/-- Degrees to radians. -/
noncomputable def deg2rad (x : ℚ) : ℝ :=
  (x : ℝ) * Real.pi / 180

/-- Mean earth radius used by the `haversine` package, in meters. -/
noncomputable def earthRadiusM : ℝ :=
  ((63710088 : ℚ) / 10 : ℚ)

/-- `haversine(p1, p2, unit=Unit.METERS)`: the haversine great-circle
distance, exactly as the `haversine` package computes it
(`2 * r * asin(sqrt(sin²(Δφ/2) + cos φ₁ · cos φ₂ · sin²(Δλ/2)))`). -/
noncomputable def haversineM (p1 p2 : ℚ × ℚ) : ℝ :=
  let lat1 := deg2rad p1.1
  let lng1 := deg2rad p1.2
  let lat2 := deg2rad p2.1
  let lng2 := deg2rad p2.2
  let h := Real.sin ((lat2 - lat1) / 2) ^ 2 +
    Real.cos lat1 * Real.cos lat2 * Real.sin ((lng2 - lng1) / 2) ^ 2
  2 * earthRadiusM * Real.arcsin (Real.sqrt h)

/-- `calculate_distance` (app.py:62-72) on node tuples (the unpacking
`lat, lng = point` requires two components; coordinates are read
positionally). -/
noncomputable def calculate_distance (p1 p2 : Node) : ℝ :=
  haversineM (p1.getD 0 0, p1.getD 1 0) (p2.getD 0 0, p2.getD 1 0)

/-- Every stored edge carries the metric value of its stored orientation
(the invariant `create_graph` maintains: weights are `calculate_distance`
of the endpoints). -/
def WeightsAre {α W : Type} (d : α → α → W) (G : WGraph α W) : Prop :=
  ∀ e ∈ G.edges, e.2.2 = d e.1 e.2.1

/-- No unordered edge pair is stored twice. -/
def EdgesDistinct {α W : Type} (G : WGraph α W) : Prop :=
  G.edges.Pairwise fun e f => ¬ pairEq e f

/-- The building work of `create_graph` on already-parsed items (the graph
mutations `create_graph` interleaves with key parsing, staged for
specification purposes). -/
def buildItems {W : Type} (d : Node → Node → W) :
    WGraph Node W → List (Node × List Node) → WGraph Node W
  | G, [] => G
  | G, (node, nbs) :: rest => buildItems d (addNeighbors d node (add_node G node) nbs) rest

/-- Decidable equality of `Except` results (for concrete evaluations). -/
instance {ε α : Type} [DecidableEq ε] [DecidableEq α] : DecidableEq (Except ε α) :=
  fun x y =>
    match x, y with
    | .ok a, .ok b =>
      if h : a = b then .isTrue (by rw [h]) else .isFalse (fun hc => by cases hc; exact h rfl)
    | .error a, .error b =>
      if h : a = b then .isTrue (by rw [h]) else .isFalse (fun hc => by cases hc; exact h rfl)
    | .ok a, .error b => .isFalse (fun hc => by cases hc)
    | .error a, .ok b => .isFalse (fun hc => by cases hc)

/-- Weak search invariant: every settled entry stores an actual walk from the
source to its node. -/
def DShape {α W : Type} [DecidableEq α] (G : WGraph α W) (s : α)
    (S : List (DEntry α W)) : Prop :=
  ∀ e ∈ S, IsPath G e.2.2 s e.1

/-- The full Dijkstra invariant over the settled list `S`
(for a well-formed graph with non-negative weights). -/
structure DInv {α W : Type} [DecidableEq α] [LinearOrderedAddCommMonoid W]
    (G : WGraph α W) (s : α) (S : List (DEntry α W)) : Prop where
  /-- Each node is settled at most once. -/
  nodup : (S.map fun e => e.1).Nodup
  /-- The source is settled. -/
  has_source : inS S s = true
  /-- Settled nodes are graph nodes. -/
  mem_nodes : ∀ e ∈ S, e.1 ∈ G.nodes
  /-- Each stored path is a walk from the source to the settled node. -/
  path_ok : ∀ e ∈ S, IsPath G e.2.2 s e.1
  /-- The settled distance is the stored path's weight. -/
  path_wt : ∀ e ∈ S, pathWeight G e.2.2 = e.2.1
  /-- Stored paths stay inside the settled region. -/
  path_sub : ∀ e ∈ S, ∀ z ∈ e.2.2, inS S z = true
  /-- Stored paths are simple. -/
  path_nodup : ∀ e ∈ S, e.2.2.Nodup
  /-- The settled distance is a lower bound on the weight of every walk from
  the source to the settled node. -/
  lb : ∀ e ∈ S, ∀ q, IsPath G q s e.1 → e.2.1 ≤ pathWeight G q

instance {α W : Type} [DecidableEq α] (e f : α × α × W) : Decidable (pairEq e f) :=
  inferInstanceAs (Decidable ((e.1 = f.1 ∧ e.2.1 = f.2.1) ∨ (e.1 = f.2.1 ∧ e.2.1 = f.1)))

instance {α W : Type} [DecidableEq α] (G : WGraph α W) : Decidable (EdgesDistinct G) :=
  inferInstanceAs (Decidable (G.edges.Pairwise fun e f => ¬ pairEq e f))

instance {α W : Type} [DecidableEq α] (G : WGraph α W) : Decidable G.WF :=
  inferInstanceAs (Decidable ((∀ e ∈ G.edges, e.1 ∈ G.nodes ∧ e.2.1 ∈ G.nodes) ∧
    G.edges.Pairwise fun e f => ¬ pairEq e f))

instance {α W : Type} [DecidableEq α] (G : WGraph α W) (p : List α) (s t : α) :
    Decidable (IsPath G p s t) :=
  inferInstanceAs (Decidable (p ≠ [] ∧ p.head? = some s ∧ p.getLast? = some t ∧
    List.Chain' (fun a b => G.hasEdge a b = true) p))

instance {α W : Type} [DecidableEq α] (G : WGraph α W) (p : List α) (s t : α) :
    Decidable (IsSimplePath G p s t) :=
  inferInstanceAs (Decidable (IsPath G p s t ∧ p.Nodup))

/-! # Theorems -/

/-! ## Nearest-neighbor search (C1) -/

theorem fcpGo_spec (q : Node) :
    ∀ (l : List Node) (best : Node) (bd : ℚ), sqDist q best ≤ bd →
      fcpGo q l best bd ∈ best :: l ∧ sqDist q (fcpGo q l best bd) ≤ bd ∧
        ∀ n ∈ l, sqDist q (fcpGo q l best bd) ≤ sqDist q n := by
  intro l
  induction l with
  | nil =>
    intro best bd h
    exact ⟨List.mem_cons_self _ _, h, by simp⟩
  | cons m rest ih =>
    intro best bd h
    rw [fcpGo]
    by_cases hlt : sqDist q m < bd
    · rw [if_pos hlt]
      obtain ⟨hmem, hle, hall⟩ := ih m (sqDist q m) le_rfl
      refine ⟨List.mem_cons_of_mem _ hmem, le_trans hle (le_of_lt hlt), ?_⟩
      intro n hn
      rcases List.mem_cons.mp hn with h1 | h1
      · subst h1; exact hle
      · exact hall n h1
    · rw [if_neg hlt]
      push_neg at hlt
      obtain ⟨hmem, hle, hall⟩ := ih best bd h
      refine ⟨?_, hle, ?_⟩
      · rcases List.mem_cons.mp hmem with h1 | h1
        · exact List.mem_cons.mpr (Or.inl h1)
        · exact List.mem_cons.mpr (Or.inr (List.mem_cons.mpr (Or.inr h1)))
      · intro n hn
        rcases List.mem_cons.mp hn with h1 | h1
        · subst h1; exact le_trans hle hlt
        · exact hall n h1

/-- C1, amended (the claim as stated is refuted by
`c1_not_haversine_counterexample`): for every query point and every non-empty
node snapshot, `find_closest_point` returns a node of the snapshot that
minimises the *Euclidean* distance on the raw coordinate tuples — the metric
`scipy.spatial.KDTree.query` actually uses — not the haversine metric. -/
theorem c1_find_closest_point_euclidean_argmin (snapshot : List Node) (q : Node)
    (h : snapshot ≠ []) :
    ∃ r, find_closest_point snapshot q = some r ∧ r ∈ snapshot ∧
      ∀ n ∈ snapshot, sqDist q r ≤ sqDist q n := by
  match snapshot, h with
  | n :: rest, _ =>
    obtain ⟨hmem, hle, hall⟩ := fcpGo_spec q rest n (sqDist q n) le_rfl
    refine ⟨fcpGo q rest n (sqDist q n), rfl, hmem, ?_⟩
    intro m hm
    rcases List.mem_cons.mp hm with h1 | h1
    · exact h1 ▸ hle
    · exact hall m h1

theorem c1_find_closest_point_euclidean_argmin_witness :
    (([[0, 0], [3, 4]] : List Node) ≠ [] ∧
      ∃ r, find_closest_point [[0, 0], [3, 4]] [1, 1] = some r ∧
        r ∈ ([[0, 0], [3, 4]] : List Node) ∧
        ∀ n ∈ ([[0, 0], [3, 4]] : List Node), sqDist [1, 1] r ≤ sqDist [1, 1] n) :=
  ⟨by decide, c1_find_closest_point_euclidean_argmin [[0, 0], [3, 4]] [1, 1] (by decide)⟩

/-! ## Graph construction lemmas (C4, C7, C8) -/

theorem add_node_edges {α W : Type} [DecidableEq α] (G : WGraph α W) (n : α) :
    (add_node G n).edges = G.edges := by
  unfold add_node; split <;> rfl

theorem add_node_nodes_mem {α W : Type} [DecidableEq α] (G : WGraph α W) (n m : α) :
    m ∈ (add_node G n).nodes ↔ m ∈ G.nodes ∨ m = n := by
  unfold add_node
  split
  · rename_i h
    constructor
    · exact fun hm => Or.inl hm
    · rintro (hm | rfl) <;> [exact hm; exact h]
  · simp [List.mem_append]

theorem add_node_nodes_nodup {α W : Type} [DecidableEq α] (G : WGraph α W) (n : α)
    (h : G.nodes.Nodup) : (add_node G n).nodes.Nodup := by
  unfold add_node
  split
  · exact h
  · rename_i hn
    simpa [List.nodup_append] using ⟨h, hn⟩

theorem addEdgeRaw_nodes {α W : Type} [DecidableEq α] (G : WGraph α W) (u v : α)
    (wt : W) : (addEdgeRaw G u v wt).nodes = G.nodes := by
  unfold addEdgeRaw; split <;> rfl

theorem add_edge_nodes_mem {α W : Type} [DecidableEq α] (G : WGraph α W) (u v : α)
    (wt : W) (m : α) :
    m ∈ (add_edge G u v wt).nodes ↔ m ∈ G.nodes ∨ m = u ∨ m = v := by
  unfold add_edge
  rw [addEdgeRaw_nodes]
  simp [add_node_nodes_mem, or_assoc]

theorem add_edge_nodes_nodup {α W : Type} [DecidableEq α] (G : WGraph α W) (u v : α)
    (wt : W) (h : G.nodes.Nodup) : (add_edge G u v wt).nodes.Nodup := by
  unfold add_edge
  rw [addEdgeRaw_nodes]
  exact add_node_nodes_nodup _ _ (add_node_nodes_nodup _ _ h)

theorem matchesPair_comm {α W : Type} [DecidableEq α] (u v : α) (e : α × α × W) :
    matchesPair u v e = matchesPair v u e := by
  unfold matchesPair
  exact decide_eq_decide.mpr or_comm

theorem hasEdge_comm {α W : Type} [DecidableEq α] (G : WGraph α W) (u v : α) :
    G.hasEdge u v = G.hasEdge v u := by
  unfold WGraph.hasEdge
  congr 1
  funext e
  exact matchesPair_comm u v e

theorem weightOf_comm {α W : Type} [DecidableEq α] (G : WGraph α W) (u v : α) :
    weightOf G u v = weightOf G v u := by
  unfold weightOf
  congr 2
  funext e
  exact matchesPair_comm u v e

theorem hasEdge_add_node {α W : Type} [DecidableEq α] (G : WGraph α W) (n a b : α) :
    (add_node G n).hasEdge a b = G.hasEdge a b := by
  unfold WGraph.hasEdge
  rw [add_node_edges]

theorem hasEdge_addEdgeRaw_self {α W : Type} [DecidableEq α] (G : WGraph α W)
    (u v : α) (wt : W) : (addEdgeRaw G u v wt).hasEdge u v = true := by
  unfold addEdgeRaw WGraph.hasEdge
  split
  · rename_i h
    rw [List.any_map]
    rw [List.any_eq_true] at h ⊢
    obtain ⟨e, he, hm⟩ := h
    refine ⟨e, he, ?_⟩
    simp only [Function.comp]
    rw [if_pos hm]
    unfold matchesPair at hm ⊢
    rw [decide_eq_true_iff] at hm ⊢
    rcases hm with ⟨h1, h2⟩ | ⟨h1, h2⟩ <;> simp [h1, h2]
  · simp [List.any_append, matchesPair]

theorem hasEdge_add_edge_self {α W : Type} [DecidableEq α] (G : WGraph α W)
    (u v : α) (wt : W) : (add_edge G u v wt).hasEdge u v = true :=
  hasEdge_addEdgeRaw_self _ u v wt

theorem hasEdge_addEdgeRaw_mono {α W : Type} [DecidableEq α] (G : WGraph α W)
    (u v a b : α) (wt : W) (h : G.hasEdge a b = true) :
    (addEdgeRaw G u v wt).hasEdge a b = true := by
  unfold addEdgeRaw WGraph.hasEdge
  unfold WGraph.hasEdge at h
  split
  · rw [List.any_map]
    rw [List.any_eq_true] at h ⊢
    obtain ⟨e, he, hm⟩ := h
    refine ⟨e, he, ?_⟩
    simp only [Function.comp]
    split
    · rename_i hmuv
      unfold matchesPair at hm ⊢
      rw [decide_eq_true_iff] at hm ⊢
      rcases hm with ⟨h1, h2⟩ | ⟨h1, h2⟩ <;> simp [← h1, ← h2]
    · exact hm
  · rw [List.any_append, h, Bool.true_or]

theorem hasEdge_add_edge_mono {α W : Type} [DecidableEq α] (G : WGraph α W)
    (u v a b : α) (wt : W) (h : G.hasEdge a b = true) :
    (add_edge G u v wt).hasEdge a b = true := by
  unfold add_edge
  apply hasEdge_addEdgeRaw_mono
  rw [hasEdge_add_node, hasEdge_add_node]
  exact h

theorem weightsAre_add_node {α W : Type} [DecidableEq α] {d : α → α → W}
    {G : WGraph α W} (n : α) (h : WeightsAre d G) : WeightsAre d (add_node G n) := by
  unfold WeightsAre at h ⊢
  rw [add_node_edges]
  exact h

theorem weightsAre_addEdgeRaw {α W : Type} [DecidableEq α] {d : α → α → W}
    {G : WGraph α W} (u v : α) (hd : ∀ a b, d a b = d b a) (h : WeightsAre d G) :
    WeightsAre d (addEdgeRaw G u v (d u v)) := by
  unfold WeightsAre at h ⊢
  unfold addEdgeRaw
  split
  · intro e he
    simp only [List.mem_map] at he
    obtain ⟨f, hf, hfe⟩ := he
    by_cases hm : matchesPair u v f = true
    · rw [if_pos hm] at hfe
      subst hfe
      unfold matchesPair at hm
      rw [decide_eq_true_iff] at hm
      rcases hm with ⟨h1, h2⟩ | ⟨h1, h2⟩
      · simp [h1, h2]
      · simp only [h1, h2]
        exact hd u v
    · rw [if_neg hm] at hfe
      subst hfe
      exact h f hf
  · intro e he
    rcases List.mem_append.mp he with h1 | h1
    · exact h e h1
    · simp only [List.mem_singleton] at h1
      subst h1
      rfl

theorem weightsAre_add_edge {α W : Type} [DecidableEq α] {d : α → α → W}
    {G : WGraph α W} (u v : α) (hd : ∀ a b, d a b = d b a) (h : WeightsAre d G) :
    WeightsAre d (add_edge G u v (d u v)) := by
  unfold add_edge
  exact weightsAre_addEdgeRaw u v hd (weightsAre_add_node _ (weightsAre_add_node _ h))

theorem edgesDistinct_add_node {α W : Type} [DecidableEq α] {G : WGraph α W}
    (n : α) (h : EdgesDistinct G) : EdgesDistinct (add_node G n) := by
  unfold EdgesDistinct at h ⊢
  rw [add_node_edges]
  exact h

theorem overwrite_fst {α W : Type} [DecidableEq α] (u v : α) (wt : W) (e : α × α × W) :
    ((if matchesPair u v e then (e.1, e.2.1, wt) else e) : α × α × W).1 = e.1 := by
  split <;> rfl

theorem overwrite_snd {α W : Type} [DecidableEq α] (u v : α) (wt : W) (e : α × α × W) :
    ((if matchesPair u v e then (e.1, e.2.1, wt) else e) : α × α × W).2.1 = e.2.1 := by
  split <;> rfl

theorem matchesPair_iff_pairEq {α W : Type} [DecidableEq α] (u v : α) (wt : W)
    (e : α × α × W) : matchesPair u v e = true ↔ pairEq e (u, v, wt) := by
  unfold matchesPair pairEq
  rw [decide_eq_true_iff]

theorem edgesDistinct_addEdgeRaw {α W : Type} [DecidableEq α] {G : WGraph α W}
    (u v : α) (wt : W) (h : EdgesDistinct G) : EdgesDistinct (addEdgeRaw G u v wt) := by
  unfold EdgesDistinct at h ⊢
  unfold addEdgeRaw
  split
  · rw [List.pairwise_map]
    refine h.imp ?_
    intro e f hne hpe
    apply hne
    unfold pairEq at hpe ⊢
    rw [overwrite_fst, overwrite_fst, overwrite_snd, overwrite_snd] at hpe
    exact hpe
  · rename_i hany
    rw [List.pairwise_append]
    refine ⟨h, List.pairwise_singleton _ _, ?_⟩
    intro e he f hf
    simp only [List.mem_singleton] at hf
    subst hf
    intro hpe
    rw [← matchesPair_iff_pairEq u v wt e] at hpe
    exact hany (List.any_eq_true.mpr ⟨e, he, hpe⟩)

theorem edgesDistinct_add_edge {α W : Type} [DecidableEq α] {G : WGraph α W}
    (u v : α) (wt : W) (h : EdgesDistinct G) : EdgesDistinct (add_edge G u v wt) :=
  edgesDistinct_addEdgeRaw u v wt (edgesDistinct_add_node _ (edgesDistinct_add_node _ h))

theorem weightOf_eq_of_weightsAre {α W : Type} [DecidableEq α] {d : α → α → W}
    {G : WGraph α W} (hd : ∀ a b, d a b = d b a) (hw : WeightsAre d G) (A B : α)
    (h : G.hasEdge A B = true) : weightOf G A B = some (d A B) := by
  unfold WGraph.hasEdge at h
  unfold weightOf
  obtain ⟨e, he, hm⟩ := List.any_eq_true.mp h
  have hfind : ∃ f, G.edges.find? (matchesPair A B) = some f := by
    rcases hf : G.edges.find? (matchesPair A B) with _ | f
    · exact absurd hm (by simpa using List.find?_eq_none.mp hf e he)
    · exact ⟨f, rfl⟩
  obtain ⟨f, hf⟩ := hfind
  have hmf : matchesPair A B f = true := List.find?_some hf
  have hmem : f ∈ G.edges := List.mem_of_find?_eq_some hf
  rw [hf]
  show some f.2.2 = some (d A B)
  congr 1
  rw [hw f hmem]
  unfold matchesPair at hmf
  rw [decide_eq_true_iff] at hmf
  rcases hmf with ⟨h1, h2⟩ | ⟨h1, h2⟩
  · rw [h1, h2]
  · rw [h1, h2]
    exact (hd A B).symm

theorem addNeighbors_nodes_mem {W : Type} (d : Node → Node → W) (node : Node)
    (nbs : List Node) :
    ∀ (G : WGraph Node W) (m : Node), node ∈ G.nodes →
      (m ∈ (addNeighbors d node G nbs).nodes ↔ m ∈ G.nodes ∨ m ∈ nbs) := by
  induction nbs with
  | nil => intro G m _; simp [addNeighbors]
  | cons nb rest ih =>
    intro G m hnode
    rw [addNeighbors, ih]
    · rw [add_edge_nodes_mem, add_node_nodes_mem]
      simp only [List.mem_cons]
      constructor
      · rintro (((h | rfl) | rfl | rfl) | h) <;> tauto
      · rintro (h | (rfl | h)) <;> tauto
    · rw [add_edge_nodes_mem]
      tauto

theorem addNeighbors_nodes_nodup {W : Type} (d : Node → Node → W) (node : Node)
    (nbs : List Node) :
    ∀ (G : WGraph Node W), G.nodes.Nodup → (addNeighbors d node G nbs).nodes.Nodup := by
  induction nbs with
  | nil => intro G h; exact h
  | cons nb rest ih =>
    intro G h
    rw [addNeighbors]
    exact ih _ (add_edge_nodes_nodup _ _ _ _ (add_node_nodes_nodup _ _ h))

theorem addNeighbors_hasEdge_mono {W : Type} (d : Node → Node → W) (node : Node)
    (nbs : List Node) :
    ∀ (G : WGraph Node W) (a b : Node), G.hasEdge a b = true →
      (addNeighbors d node G nbs).hasEdge a b = true := by
  induction nbs with
  | nil => intro G a b h; exact h
  | cons nb rest ih =>
    intro G a b h
    rw [addNeighbors]
    apply ih
    apply hasEdge_add_edge_mono
    rw [hasEdge_add_node]
    exact h

theorem addNeighbors_hasEdge_self {W : Type} (d : Node → Node → W) (node : Node)
    (nbs : List Node) :
    ∀ (G : WGraph Node W) (nb : Node), nb ∈ nbs →
      (addNeighbors d node G nbs).hasEdge node nb = true := by
  induction nbs with
  | nil => intro G nb h; exact absurd h (List.not_mem_nil _)
  | cons nb0 rest ih =>
    intro G nb h
    rw [addNeighbors]
    rcases List.mem_cons.mp h with h1 | h1
    · subst h1
      exact addNeighbors_hasEdge_mono d node rest _ node nb
        (hasEdge_add_edge_self _ node nb _)
    · exact ih _ nb h1

theorem addNeighbors_weightsAre {W : Type} {d : Node → Node → W} (node : Node)
    (nbs : List Node) (hd : ∀ a b, d a b = d b a) :
    ∀ {G : WGraph Node W}, WeightsAre d G → WeightsAre d (addNeighbors d node G nbs) := by
  induction nbs with
  | nil => intro G h; exact h
  | cons nb rest ih =>
    intro G h
    rw [addNeighbors]
    exact ih (weightsAre_add_edge node nb hd (weightsAre_add_node nb h))

theorem addNeighbors_edgesDistinct {W : Type} {d : Node → Node → W} (node : Node)
    (nbs : List Node) :
    ∀ {G : WGraph Node W}, EdgesDistinct G → EdgesDistinct (addNeighbors d node G nbs) := by
  induction nbs with
  | nil => intro G h; exact h
  | cons nb rest ih =>
    intro G h
    rw [addNeighbors]
    exact ih (edgesDistinct_add_edge node nb _ (edgesDistinct_add_node nb h))

theorem buildItems_nodes_mem {W : Type} (d : Node → Node → W)
    (parsed : List (Node × List Node)) :
    ∀ (G : WGraph Node W) (m : Node),
      m ∈ (buildItems d G parsed).nodes ↔ m ∈ G.nodes ∨ m ∈ occList parsed := by
  induction parsed with
  | nil => intro G m; simp [buildItems, occList]
  | cons item rest ih =>
    intro G m
    obtain ⟨node, nbs⟩ := item
    rw [buildItems, ih]
    rw [addNeighbors_nodes_mem, add_node_nodes_mem]
    · simp only [occList, List.mem_append, List.mem_cons]
      tauto
    · exact (add_node_nodes_mem G node node).mpr (Or.inr rfl)

theorem buildItems_nodes_nodup {W : Type} (d : Node → Node → W)
    (parsed : List (Node × List Node)) :
    ∀ (G : WGraph Node W), G.nodes.Nodup → (buildItems d G parsed).nodes.Nodup := by
  induction parsed with
  | nil => intro G h; exact h
  | cons item rest ih =>
    intro G h
    obtain ⟨node, nbs⟩ := item
    rw [buildItems]
    exact ih _ (addNeighbors_nodes_nodup _ _ _ _ (add_node_nodes_nodup _ _ h))

theorem buildItems_hasEdge_mono {W : Type} (d : Node → Node → W)
    (parsed : List (Node × List Node)) :
    ∀ (G : WGraph Node W) (a b : Node), G.hasEdge a b = true →
      (buildItems d G parsed).hasEdge a b = true := by
  induction parsed with
  | nil => intro G a b h; exact h
  | cons item rest ih =>
    intro G a b h
    obtain ⟨node, nbs⟩ := item
    rw [buildItems]
    apply ih
    apply addNeighbors_hasEdge_mono
    rw [hasEdge_add_node]
    exact h

theorem buildItems_hasEdge_decl {W : Type} (d : Node → Node → W)
    (parsed : List (Node × List Node)) :
    ∀ (G : WGraph Node W) (A B : Node),
      (∃ item ∈ parsed, item.1 = A ∧ B ∈ item.2) →
      (buildItems d G parsed).hasEdge A B = true := by
  induction parsed with
  | nil =>
    intro G A B h
    obtain ⟨item, hmem, _⟩ := h
    exact absurd hmem (List.not_mem_nil _)
  | cons item rest ih =>
    intro G A B h
    obtain ⟨it, hmem, h1, h2⟩ := h
    rcases List.mem_cons.mp hmem with he | he
    · subst he
      obtain ⟨node, nbs⟩ := it
      simp only at h1 h2
      subst h1
      rw [buildItems]
      exact buildItems_hasEdge_mono d rest _ node B
        (addNeighbors_hasEdge_self d node nbs _ B h2)
    · obtain ⟨node, nbs⟩ := item
      rw [buildItems]
      exact ih _ A B ⟨it, he, h1, h2⟩

theorem buildItems_weightsAre {W : Type} {d : Node → Node → W}
    (parsed : List (Node × List Node)) (hd : ∀ a b, d a b = d b a) :
    ∀ {G : WGraph Node W}, WeightsAre d G → WeightsAre d (buildItems d G parsed) := by
  induction parsed with
  | nil => intro G h; exact h
  | cons item rest ih =>
    intro G h
    obtain ⟨node, nbs⟩ := item
    rw [buildItems]
    exact ih (addNeighbors_weightsAre node nbs hd (weightsAre_add_node node h))

theorem buildItems_edgesDistinct {W : Type} {d : Node → Node → W}
    (parsed : List (Node × List Node)) :
    ∀ {G : WGraph Node W}, EdgesDistinct G → EdgesDistinct (buildItems d G parsed) := by
  induction parsed with
  | nil => intro G h; exact h
  | cons item rest ih =>
    intro G h
    obtain ⟨node, nbs⟩ := item
    rw [buildItems]
    exact ih (addNeighbors_edgesDistinct node nbs (edgesDistinct_add_node node h))

theorem create_graph_items_eq_buildItems {W : Type} (d : Node → Node → W) :
    ∀ (input : List (String × List Node)) (parsed : List (Node × List Node))
      (G : WGraph Node W), parseItems input = .ok parsed →
      create_graph_items d G input = .ok (buildItems d G parsed) := by
  intro input
  induction input with
  | nil =>
    intro parsed G h
    rw [parseItems] at h
    cases h
    rfl
  | cons kv rest ih =>
    intro parsed G h
    obtain ⟨k, nbs⟩ := kv
    rw [parseItems] at h
    rw [create_graph_items]
    rcases hk : parseKey k with e | node <;> rw [hk] at h
    · exact absurd h (by simp)
    · rcases hr : parseItems rest with e | ps <;> rw [hr] at h
      · exact absurd h (by simp)
      · simp only [Except.ok.injEq] at h
        subst h
        rw [buildItems]
        exact ih ps _ hr

theorem parseFloats_ok_forall :
    ∀ (ts : List (List Char)) (qs : List ℚ), parseFloats ts = .ok qs →
      ∀ t ∈ ts, pyFloat? t ≠ none := by
  intro ts
  induction ts with
  | nil => intro qs _ t ht; exact absurd ht (List.not_mem_nil _)
  | cons t0 rest ih =>
    intro qs h t ht
    rw [parseFloats] at h
    rcases h0 : pyFloat? t0 with _ | q <;> rw [h0] at h
    · exact absurd h (by simp)
    · rcases hr : parseFloats rest with e | qs' <;> rw [hr] at h
      · exact absurd h (by simp)
      · rcases List.mem_cons.mp ht with h1 | h1
        · subst h1; simp [h0]
        · exact ih qs' hr t h1

theorem create_graph_items_error {W : Type} (d : Node → Node → W) :
    ∀ (input : List (String × List Node)) (G : WGraph Node W),
      (∃ kv ∈ input, ∃ tok ∈ splitCommaSpace [] (pyStripParens kv.1.toList),
        pyFloat? tok = none) →
      ∃ e, create_graph_items d G input = .error e := by
  intro input
  induction input with
  | nil =>
    intro G h
    obtain ⟨kv, hkv, _⟩ := h
    exact absurd hkv (List.not_mem_nil _)
  | cons kv0 rest ih =>
    intro G h
    obtain ⟨k, nbs⟩ := kv0
    rw [create_graph_items]
    rcases hk : parseKey k with e | node
    · exact ⟨e, rfl⟩
    · obtain ⟨kv, hkv, tok, htok, hnone⟩ := h
      rcases List.mem_cons.mp hkv with h1 | h1
      · subst h1
        exact absurd hnone
          (parseFloats_ok_forall _ node hk tok htok)
      · exact ih _ ⟨kv, h1, tok, htok, hnone⟩

/-- C4 (confirmed): for every well-formed adjacency input (each key parses),
the node count of the graph built by `create_graph` equals the number of
distinct coordinate values — compared by numeric value — appearing across all
keys and neighbor lists. -/
theorem c4_node_count {W : Type} (d : Node → Node → W)
    (input : List (String × List Node)) (parsed : List (Node × List Node))
    (hp : parseItems input = .ok parsed) :
    ∃ G, create_graph d input = .ok G ∧
      G.nodes.length = (occList parsed).toFinset.card := by
  refine ⟨buildItems d ⟨[], []⟩ parsed, ?_, ?_⟩
  · exact create_graph_items_eq_buildItems d input parsed _ hp
  · have hnodup : (buildItems d (⟨[], []⟩ : WGraph Node W) parsed).nodes.Nodup :=
      buildItems_nodes_nodup d parsed _ List.nodup_nil
    have hmem : ∀ m, m ∈ (buildItems d (⟨[], []⟩ : WGraph Node W) parsed).nodes ↔
        m ∈ occList parsed := by
      intro m
      rw [buildItems_nodes_mem]
      simp
    have hfs : (buildItems d (⟨[], []⟩ : WGraph Node W) parsed).nodes.toFinset =
        (occList parsed).toFinset := by
      apply Finset.ext
      intro m
      rw [List.mem_toFinset, List.mem_toFinset, hmem]
    rw [← List.toFinset_card_of_nodup hnodup, hfs]

theorem c4_node_count_witness :
    (parseItems [("(1.0, 2.0)", [[1, 2], [3, 4]]), ("(3.0, 4.0)", [])] =
        .ok [([1, 2], [[1, 2], [3, 4]]), ([3, 4], [])] ∧
      ∃ G, create_graph (fun _ _ => (0 : ℚ))
            [("(1.0, 2.0)", [[1, 2], [3, 4]]), ("(3.0, 4.0)", [])] = .ok G ∧
          G.nodes.length =
            (occList [([1, 2], [[1, 2], [3, 4]]), ([3, 4], [])]).toFinset.card) :=
  ⟨by simp [parseItems, parseKey, parseFloats, pyFloat?, splitCommaSpace, pyStripParens,
      takeDigits, digitVal?, parseExp],
    c4_node_count (fun _ _ => (0 : ℚ)) [("(1.0, 2.0)", [[1, 2], [3, 4]]), ("(3.0, 4.0)", [])]
      [([1, 2], [[1, 2], [3, 4]]), ([3, 4], [])]
      (by simp [parseItems, parseKey, parseFloats, pyFloat?,
        splitCommaSpace, pyStripParens, takeDigits, digitVal?, parseExp])⟩

/-- C7, amended (the claim as stated is refuted by `c7_counterexample`):
`create_graph` fails with the typed construction-time error — and the
initialisation hook therefore publishes neither graph nor index, so no query
is ever served — exactly when some key has a component that does not parse as
a float.  A key that parses as a number of floats other than two (e.g. three)
is accepted, producing a higher-arity node, contrary to the claim. -/
theorem c7_parse_error_fail_fast {W : Type} (d : Node → Node → W)
    (input : List (String × List Node))
    (hbad : ∃ kv ∈ input, ∃ tok ∈ splitCommaSpace [] (pyStripParens kv.1.toList),
      pyFloat? tok = none) :
    ∃ e, create_graph d input = .error e ∧ initApp d input = .error e := by
  obtain ⟨e, he⟩ := create_graph_items_error d input ⟨[], []⟩ hbad
  refine ⟨e, he, ?_⟩
  unfold initApp
  rw [show create_graph d input = .error e from he]

theorem c7_parse_error_fail_fast_witness :
    ((∃ kv ∈ [("(x, 2.0)", ([] : List Node))],
        ∃ tok ∈ splitCommaSpace [] (pyStripParens kv.1.toList), pyFloat? tok = none) ∧
      ∃ e, create_graph (fun _ _ => (0 : ℚ)) [("(x, 2.0)", [])] = .error e ∧
        initApp (fun _ _ => (0 : ℚ)) [("(x, 2.0)", [])] = .error e) :=
  ⟨by decide, c7_parse_error_fail_fast _ _ (by decide)⟩

/-- C7 counterexample: the key `"(1.0, 2.0, 3.0)"` does not parse as *two*
floating-point numbers, yet graph construction does not fail — it succeeds
and produces a single three-component node. -/
theorem c7_counterexample :
    create_graph (fun _ _ => (0 : ℚ)) [("(1.0, 2.0, 3.0)", [])] =
      .ok ⟨[[1, 2, 3]], []⟩ := by
  simp [create_graph, create_graph_items, parseKey, parseFloats, pyFloat?, splitCommaSpace,
    pyStripParens, takeDigits, digitVal?, parseExp, addNeighbors, add_node]

theorem sqDist_symm : ∀ p q : Node, sqDist p q = sqDist q p := by
  intro p
  induction p with
  | nil => intro q; cases q <;> rfl
  | cons a p ih =>
    intro q
    cases q with
    | nil => rfl
    | cons b q => rw [sqDist, sqDist, ih]; ring

/-- C8 (confirmed): for every adjacency input and declared neighbor relation
(A, B), the built graph has the undirected edge in both directions with the
single stored weight `d A B` (the symmetric distance metric of the model,
instantiated by the haversine `calculate_distance`), and repeated insertion of
nodes or edge pairs never duplicates: the node list is duplicate-free and no
unordered edge pair is stored twice. -/
theorem c8_undirected_idempotent {W : Type} (d : Node → Node → W)
    (hd : ∀ a b, d a b = d b a) (input : List (String × List Node))
    (parsed : List (Node × List Node)) (A B : Node)
    (hp : parseItems input = .ok parsed)
    (hdecl : ∃ item ∈ parsed, item.1 = A ∧ B ∈ item.2) :
    ∃ G, create_graph d input = .ok G ∧
      G.hasEdge A B = true ∧ G.hasEdge B A = true ∧
      weightOf G A B = some (d A B) ∧ weightOf G B A = some (d A B) ∧
      G.nodes.Nodup ∧ EdgesDistinct G := by
  refine ⟨buildItems d ⟨[], []⟩ parsed,
    create_graph_items_eq_buildItems d input parsed _ hp, ?_⟩
  have hAB : (buildItems d (⟨[], []⟩ : WGraph Node W) parsed).hasEdge A B = true :=
    buildItems_hasEdge_decl d parsed _ A B hdecl
  have hw : WeightsAre d (buildItems d (⟨[], []⟩ : WGraph Node W) parsed) :=
    buildItems_weightsAre parsed hd (fun e he => absurd he (List.not_mem_nil _))
  refine ⟨hAB, by rw [hasEdge_comm]; exact hAB, ?_, ?_, ?_, ?_⟩
  · exact weightOf_eq_of_weightsAre hd hw A B hAB
  · rw [weightOf_comm]
    exact weightOf_eq_of_weightsAre hd hw A B hAB
  · exact buildItems_nodes_nodup d parsed _ List.nodup_nil
  · exact buildItems_edgesDistinct parsed List.Pairwise.nil

theorem c8_undirected_idempotent_witness :
    ((∀ a b : Node, sqDist a b = sqDist b a) ∧
      parseItems [("(0.0, 0.0)", [[0, 1]])] = .ok [([0, 0], [[0, 1]])] ∧
      (∃ item ∈ ([([0, 0], [[0, 1]])] : List (Node × List Node)),
        item.1 = ([0, 0] : Node) ∧ ([0, 1] : Node) ∈ item.2) ∧
      ∃ G, create_graph sqDist [("(0.0, 0.0)", [[0, 1]])] = .ok G ∧
        G.hasEdge [0, 0] [0, 1] = true ∧ G.hasEdge [0, 1] [0, 0] = true ∧
        weightOf G [0, 0] [0, 1] = some (sqDist [0, 0] [0, 1]) ∧
        weightOf G [0, 1] [0, 0] = some (sqDist [0, 0] [0, 1]) ∧
        G.nodes.Nodup ∧ EdgesDistinct G) :=
  ⟨sqDist_symm,
    by simp [parseItems, parseKey, parseFloats, pyFloat?, splitCommaSpace, pyStripParens,
      takeDigits, digitVal?, parseExp],
    by decide,
    c8_undirected_idempotent sqDist sqDist_symm [("(0.0, 0.0)", [[0, 1]])]
      [([0, 0], [[0, 1]])] [0, 0] [0, 1]
      (by simp [parseItems, parseKey, parseFloats, pyFloat?, splitCommaSpace, pyStripParens,
        takeDigits, digitVal?, parseExp]) (by decide)⟩

/-! ## Dijkstra lemmas (C2, C3, C9) -/

theorem selectMin_eq_none {α W : Type} [LinearOrder W] {l : List (DEntry α W)} :
    selectMin l = none ↔ l = [] := by
  constructor
  · intro h
    cases l with
    | nil => rfl
    | cons e es =>
      rw [selectMin] at h
      split at h
      · cases h
      · split at h <;> cases h
  · intro h
    subst h
    rfl

theorem selectMin_mem {α W : Type} [LinearOrder W] {l : List (DEntry α W)}
    {c : DEntry α W} (h : selectMin l = some c) : c ∈ l := by
  induction l with
  | nil => exact absurd h (by simp [selectMin])
  | cons e es ih =>
    rw [selectMin] at h
    split at h
    · cases h
      exact List.mem_cons_self _ _
    · rename_i m hm
      split at h
      · cases h
        exact List.mem_cons_self _ _
      · cases h
        exact List.mem_cons_of_mem _ (ih hm)

theorem selectMin_le {α W : Type} [LinearOrder W] :
    ∀ (l : List (DEntry α W)) (c : DEntry α W), selectMin l = some c →
      ∀ e ∈ l, c.2.1 ≤ e.2.1 := by
  intro l
  induction l with
  | nil => intro c h; exact absurd h (by simp [selectMin])
  | cons e0 es ih =>
    intro c h e he
    rw [selectMin] at h
    split at h
    · rename_i hm
      cases h
      have : es = [] := selectMin_eq_none.mp hm
      subst this
      rcases List.mem_cons.mp he with h1 | h1
      · subst h1; exact le_refl _
      · exact absurd h1 (List.not_mem_nil _)
    · rename_i m hm
      have hmle : ∀ f ∈ es, m.2.1 ≤ f.2.1 := ih m hm
      split at h
      · rename_i hle
        cases h
        rcases List.mem_cons.mp he with h1 | h1
        · subst h1; exact le_refl _
        · exact le_trans hle (hmle e h1)
      · rename_i hle
        cases h
        rcases List.mem_cons.mp he with h1 | h1
        · subst h1; exact le_of_not_le hle
        · exact hmle e h1

theorem inS_iff {α W : Type} [DecidableEq α] {S : List (DEntry α W)} {v : α} :
    inS S v = true ↔ ∃ e ∈ S, e.1 = v := by
  unfold inS
  rw [List.any_eq_true]
  simp

theorem inS_eq_false {α W : Type} [DecidableEq α] {S : List (DEntry α W)} {v : α} :
    inS S v = false ↔ ∀ e ∈ S, e.1 ≠ v := by
  unfold inS
  rw [List.any_eq_false]
  constructor
  · intro h e he
    simpa using h e he
  · intro h e he
    simpa using h e he

theorem inS_append {α W : Type} [DecidableEq α] (S T : List (DEntry α W)) (v : α) :
    inS (S ++ T) v = (inS S v || inS T v) := by
  unfold inS
  exact List.any_append

theorem mem_candidates_iff {α W : Type} [DecidableEq α] [LinearOrderedAddCommMonoid W]
    {G : WGraph α W} {S : List (DEntry α W)} {c : DEntry α W} :
    c ∈ candidates G S ↔ ∃ e ∈ S, ∃ vw ∈ adjW G e.1, inS S vw.1 = false ∧
      c = (vw.1, e.2.1 + vw.2, e.2.2 ++ [vw.1]) := by
  unfold candidates
  rw [List.mem_flatMap]
  constructor
  · rintro ⟨e, he, hc⟩
    rw [List.mem_filterMap] at hc
    obtain ⟨vw, hvw, hf⟩ := hc
    refine ⟨e, he, vw, hvw, ?_⟩
    by_cases hin : inS S vw.1
    · rw [if_pos hin] at hf
      cases hf
    · rw [if_neg hin] at hf
      cases hf
      exact ⟨Bool.not_eq_true _ |>.mp hin, rfl⟩
  · rintro ⟨e, he, vw, hvw, hin, rfl⟩
    refine ⟨e, he, ?_⟩
    rw [List.mem_filterMap]
    exact ⟨vw, hvw, by rw [if_neg (by rw [hin]; exact Bool.false_ne_true)]⟩

theorem adjW_hasEdge {α W : Type} [DecidableEq α] {G : WGraph α W} {u : α}
    {vw : α × W} (h : vw ∈ adjW G u) : G.hasEdge u vw.1 = true := by
  unfold adjW at h
  rw [List.mem_filterMap] at h
  obtain ⟨e, he, hf⟩ := h
  unfold WGraph.hasEdge
  rw [List.any_eq_true]
  refine ⟨e, he, ?_⟩
  unfold matchesPair
  rw [decide_eq_true_iff]
  by_cases h1 : e.1 = u
  · rw [if_pos h1] at hf
    cases hf
    exact Or.inl ⟨h1, rfl⟩
  · rw [if_neg h1] at hf
    by_cases h2 : e.2.1 = u
    · rw [if_pos h2] at hf
      cases hf
      exact Or.inr ⟨rfl, h2⟩
    · rw [if_neg h2] at hf
      cases hf

theorem hasEdge_exists_adjW {α W : Type} [DecidableEq α] {G : WGraph α W} {u v : α}
    (h : G.hasEdge u v = true) : ∃ wt, (v, wt) ∈ adjW G u := by
  unfold WGraph.hasEdge at h
  obtain ⟨e, he, hm⟩ := List.any_eq_true.mp h
  unfold matchesPair at hm
  rw [decide_eq_true_iff] at hm
  unfold adjW
  rcases hm with ⟨h1, h2⟩ | ⟨h1, h2⟩
  · refine ⟨e.2.2, ?_⟩
    rw [List.mem_filterMap]
    exact ⟨e, he, by rw [if_pos h1, h2]⟩
  · refine ⟨e.2.2, ?_⟩
    rw [List.mem_filterMap]
    by_cases h3 : e.1 = u
    · exact ⟨e, he, by rw [if_pos h3, h2, ← h3, h1]⟩
    · exact ⟨e, he, by rw [if_neg h3, if_pos h2, h1]⟩

theorem adjW_mem_nodes {α W : Type} [DecidableEq α] {G : WGraph α W} (hWF : G.WF)
    {u : α} {vw : α × W} (h : vw ∈ adjW G u) : vw.1 ∈ G.nodes := by
  unfold adjW at h
  rw [List.mem_filterMap] at h
  obtain ⟨e, he, hf⟩ := h
  by_cases h1 : e.1 = u
  · rw [if_pos h1] at hf
    cases hf
    exact (hWF.1 e he).2
  · rw [if_neg h1] at hf
    by_cases h2 : e.2.1 = u
    · rw [if_pos h2] at hf
      cases hf
      exact (hWF.1 e he).1
    · rw [if_neg h2] at hf
      cases hf

theorem pairEq_symm {α W : Type} {e f : α × α × W} (h : pairEq e f) : pairEq f e := by
  unfold pairEq at h ⊢
  rcases h with ⟨h1, h2⟩ | ⟨h1, h2⟩
  · exact Or.inl ⟨h1.symm, h2.symm⟩
  · exact Or.inr ⟨h2.symm, h1.symm⟩

theorem edgesDistinct_eq {α W : Type} [DecidableEq α] {G : WGraph α W}
    (hdis : EdgesDistinct G) {e f : α × α × W} (he : e ∈ G.edges) (hf : f ∈ G.edges)
    (hpe : pairEq e f) : e = f := by
  by_contra hne
  have hsym : Symmetric (fun e f : α × α × W => ¬ pairEq e f) :=
    fun a b hab hba => hab (pairEq_symm hba)
  exact List.Pairwise.forall hsym hdis he hf hne hpe

theorem matches_matches_pairEq {α W : Type} [DecidableEq α] {u v : α}
    {e f : α × α × W} (he : matchesPair u v e = true) (hf : matchesPair u v f = true) :
    pairEq e f := by
  unfold matchesPair at he hf
  rw [decide_eq_true_iff] at he hf
  unfold pairEq
  rcases he with ⟨h1, h2⟩ | ⟨h1, h2⟩ <;> rcases hf with ⟨h3, h4⟩ | ⟨h3, h4⟩ <;>
    [left; right; right; left] <;> constructor <;> simp [h1, h2, h3, h4]

theorem weightOf_eq_of_mem_matches {α W : Type} [DecidableEq α] {G : WGraph α W}
    (hdis : EdgesDistinct G) {u v : α} {e : α × α × W} (he : e ∈ G.edges)
    (hm : matchesPair u v e = true) : weightOf G u v = some e.2.2 := by
  unfold weightOf
  rcases hf : G.edges.find? (matchesPair u v) with _ | f
  · exact absurd hm (by simpa using List.find?_eq_none.mp hf e he)
  · have h1 : matchesPair u v f = true := List.find?_some hf
    have h2 : f ∈ G.edges := List.mem_of_find?_eq_some hf
    have : e = f := edgesDistinct_eq hdis he h2 (matches_matches_pairEq hm h1)
    subst this
    rfl

theorem adjW_weightOf {α W : Type} [DecidableEq α] {G : WGraph α W}
    (hdis : EdgesDistinct G) {u : α} {vw : α × W} (h : vw ∈ adjW G u) :
    weightOf G u vw.1 = some vw.2 := by
  have hcopy := h
  unfold adjW at hcopy
  rw [List.mem_filterMap] at hcopy
  obtain ⟨e, he, hf⟩ := hcopy
  by_cases h1 : e.1 = u
  · rw [if_pos h1] at hf
    cases hf
    exact weightOf_eq_of_mem_matches hdis he
      (by unfold matchesPair; rw [decide_eq_true_iff]; exact Or.inl ⟨h1, rfl⟩)
  · rw [if_neg h1] at hf
    by_cases h2 : e.2.1 = u
    · rw [if_pos h2] at hf
      cases hf
      exact weightOf_eq_of_mem_matches hdis he
        (by unfold matchesPair; rw [decide_eq_true_iff]; exact Or.inr ⟨rfl, h2⟩)
    · rw [if_neg h2] at hf
      cases hf

theorem adjW_wOf {α W : Type} [DecidableEq α] [Zero W] {G : WGraph α W}
    (hdis : EdgesDistinct G) {u : α} {vw : α × W} (h : vw ∈ adjW G u) :
    wOf G u vw.1 = vw.2 := by
  unfold wOf
  rw [adjW_weightOf hdis h]
  rfl

theorem wOf_nonneg {α W : Type} [DecidableEq α] [LinearOrderedAddCommMonoid W]
    {G : WGraph α W} (hnn : ∀ e ∈ G.edges, 0 ≤ e.2.2) (u v : α) : 0 ≤ wOf G u v := by
  unfold wOf weightOf
  rcases hf : G.edges.find? (matchesPair u v) with _ | f
  · exact le_refl _
  · exact hnn f (List.mem_of_find?_eq_some hf)

theorem pathWeight_nonneg {α W : Type} [DecidableEq α] [LinearOrderedAddCommMonoid W]
    {G : WGraph α W} (hnn : ∀ e ∈ G.edges, 0 ≤ e.2.2) :
    ∀ (p : List α), 0 ≤ pathWeight G p := by
  intro p
  induction p with
  | nil => exact le_refl _
  | cons u rest ih =>
    cases rest with
    | nil => exact le_refl _
    | cons v rest' =>
      rw [pathWeight]
      exact add_nonneg (wOf_nonneg hnn u v) ih

theorem pathWeight_concat {α W : Type} [DecidableEq α] [LinearOrderedAddCommMonoid W]
    (G : WGraph α W) :
    ∀ (p : List α) (u v : α), p.getLast? = some u →
      pathWeight G (p ++ [v]) = pathWeight G p + wOf G u v := by
  intro p
  induction p with
  | nil => intro u v h; cases h
  | cons a rest ih =>
    intro u v h
    cases rest with
    | nil =>
      have hu : u = a := by simpa using h.symm
      subst hu
      simp [pathWeight]
    | cons b rest' =>
      have h2 : (b :: rest').getLast? = some u := by rwa [List.getLast?_cons_cons] at h
      show wOf G a b + pathWeight G ((b :: rest') ++ [v]) =
        (wOf G a b + pathWeight G (b :: rest')) + wOf G u v
      rw [ih u v h2, add_assoc]

theorem head?_append_of_some {α : Type} {l l' : List α} {a : α}
    (h : l.head? = some a) : (l ++ l').head? = some a := by
  cases l
  · cases h
  · simpa using h

theorem isPath_single {α W : Type} [DecidableEq α] (G : WGraph α W) (s : α) :
    IsPath G [s] s s :=
  ⟨by simp, rfl, rfl, List.chain'_singleton s⟩

theorem isPath_concat {α W : Type} [DecidableEq α] {G : WGraph α W} {p : List α}
    {s u v : α} (hp : IsPath G p s u) (he : G.hasEdge u v = true) :
    IsPath G (p ++ [v]) s v := by
  obtain ⟨hne, hhead, hlast, hchain⟩ := hp
  refine ⟨by simp, head?_append_of_some hhead, List.getLast?_concat p, ?_⟩
  rw [List.chain'_append]
  refine ⟨hchain, List.chain'_singleton v, ?_⟩
  intro x hx y hy
  simp only [List.head?_cons, Option.mem_def, Option.some.injEq] at hy
  subst hy
  rw [hlast] at hx
  simp only [Option.mem_def, Option.some.injEq] at hx
  subst hx
  exact he

theorem dShape_step {α W : Type} [DecidableEq α] [LinearOrderedAddCommMonoid W]
    {G : WGraph α W} {s : α} {S : List (DEntry α W)} {c : DEntry α W}
    (hS : DShape G s S) (hc : selectMin (candidates G S) = some c) :
    DShape G s (S ++ [c]) := by
  intro e he
  rcases List.mem_append.mp he with h1 | h1
  · exact hS e h1
  · simp only [List.mem_singleton] at h1
    subst h1
    obtain ⟨e0, he0, vw, hvw, hin, hc'⟩ := mem_candidates_iff.mp (selectMin_mem hc)
    subst hc'
    exact isPath_concat (hS e0 he0) (adjW_hasEdge hvw)

theorem dShape_loop {α W : Type} [DecidableEq α] [LinearOrderedAddCommMonoid W]
    {G : WGraph α W} {s : α} :
    ∀ (n : ℕ) (S : List (DEntry α W)), DShape G s S → DShape G s (dijkstraLoop G n S) := by
  intro n
  induction n with
  | zero => intro S h; exact h
  | succ n ih =>
    intro S h
    rw [dijkstraLoop]
    rcases hm : selectMin (candidates G S) with _ | c
    · exact h
    · exact ih _ (dShape_step h hm)

theorem find?_entry {α W : Type} [DecidableEq α] {S : List (DEntry α W)} {t : α}
    {e : DEntry α W} (h : S.find? (fun e => decide (e.1 = t)) = some e) :
    e ∈ S ∧ e.1 = t :=
  ⟨List.mem_of_find?_eq_some h, by simpa using List.find?_some h⟩

theorem dijkstra_some_isPath {α W : Type} [DecidableEq α] [LinearOrderedAddCommMonoid W]
    {G : WGraph α W} {s t : α} {p : List α} (h : dijkstra G s t = some p) :
    IsPath G p s t := by
  unfold dijkstra at h
  rcases hf : (dijkstraLoop G G.nodes.length [(s, 0, [s])]).find?
      (fun e => decide (e.1 = t)) with _ | e <;> rw [hf] at h
  · cases h
  · cases h
    obtain ⟨hmem, ht⟩ := find?_entry hf
    have hshape : DShape G s (dijkstraLoop G G.nodes.length [(s, 0, [s])]) := by
      apply dShape_loop
      intro e0 he0
      simp only [List.mem_singleton] at he0
      subst he0
      exact isPath_single G s
    have := hshape e hmem
    rwa [ht] at this

theorem not_reachable_no_edges {α W : Type} [DecidableEq α] {G : WGraph α W}
    (he : G.edges = []) {s t : α} (hne : s ≠ t) : ¬ Reachable G s t := by
  rintro ⟨p, hne', hh, hl, hc⟩
  match p, hne', hh, hl, hc with
  | [a], _, hh, hl, _ =>
    simp only [List.head?_cons, Option.some.injEq] at hh
    simp only [List.getLast?_singleton, Option.some.injEq] at hl
    exact hne (hh ▸ hl ▸ rfl)
  | a :: b :: rest, _, hh, hl, hc =>
    have hedge : G.hasEdge a b = true := (List.chain'_cons.mp hc).1
    unfold WGraph.hasEdge at hedge
    rw [he] at hedge
    cases hedge

/-- C3 (confirmed): for member nodes in different connected components
(no walk connects them), `find_shortest_path` reports the no-path failure
(`None`, never a partial path), and the request handler leaves the shared
graph and KD-tree state unchanged, so later queries behave as if the query
had not happened. -/
theorem c3_no_path_disconnected {W : Type} [LinearOrderedAddCommMonoid W]
    (G : WGraph Node W) (s t : Node) (hs : s ∈ G.nodes) (ht : t ∈ G.nodes)
    (hnr : ¬ Reachable G s t) :
    find_shortest_path G s t = none ∧
      ∀ (st : ServerState W) (body : ReqBody), (find_path_route st body).2 = st := by
  constructor
  · rcases hr : find_shortest_path G s t with _ | p
    · rfl
    · exact absurd ⟨p, dijkstra_some_isPath hr⟩ hnr
  · intro st body
    rfl

theorem c3_no_path_disconnected_witness :
    (([0, 0] : Node) ∈ (⟨[[0, 0], [5, 5]], []⟩ : WGraph Node ℕ).nodes ∧
      ([5, 5] : Node) ∈ (⟨[[0, 0], [5, 5]], []⟩ : WGraph Node ℕ).nodes ∧
      ¬ Reachable (⟨[[0, 0], [5, 5]], []⟩ : WGraph Node ℕ) [0, 0] [5, 5] ∧
      (find_shortest_path (⟨[[0, 0], [5, 5]], []⟩ : WGraph Node ℕ) [0, 0] [5, 5] = none ∧
        ∀ (st : ServerState ℕ) (body : ReqBody), (find_path_route st body).2 = st)) :=
  ⟨by decide, by decide, not_reachable_no_edges rfl (by decide),
    c3_no_path_disconnected _ _ _ (by decide) (by decide)
      (not_reachable_no_edges rfl (by decide))⟩

theorem correctedPath_length :
    ∀ (p cp : List Node), correctedPath p = some cp → cp.length = p.length := by
  intro p
  induction p with
  | nil => intro cp h; cases h; rfl
  | cons n rest ih =>
    intro cp h
    rw [correctedPath] at h
    rcases h1 : swapLatLon n with _ | m <;> rw [h1] at h
    · cases h
    · rcases h2 : correctedPath rest with _ | ms <;> rw [h2] at h
      · cases h
      · cases h
        simp [ih ms h2]

/-- C9 (confirmed): when the two snapped endpoints are distinct — the only
situation in which the handler invokes the search and then the encoder — any
path the search returns has at least two nodes, so the encoder's line-geometry
construction (which fails on exactly one coordinate) never fails on a
single-point path. -/
theorem c9_encoder_gets_two_nodes {W : Type} [LinearOrderedAddCommMonoid W]
    (G : WGraph Node W) (sc ec : Node) (p : List Node) (hne : sc ≠ ec)
    (h : find_shortest_path G sc ec = some p) :
    2 ≤ p.length ∧
      ∀ cp, correctedPath p = some cp → ∃ doc, generate_kml_file p = some doc := by
  obtain ⟨hne', hh, hl, _⟩ := dijkstra_some_isPath h
  have h2 : 2 ≤ p.length := by
    match p, hne' with
    | [a], _ =>
      simp only [List.head?_cons, Option.some.injEq] at hh
      simp only [List.getLast?_singleton, Option.some.injEq] at hl
      exact absurd (hh ▸ hl ▸ rfl) hne
    | a :: b :: rest, _ => simp
  refine ⟨h2, ?_⟩
  intro cp hcp
  unfold generate_kml_file
  rw [hcp]
  have hlen : ¬ cp.length = 1 := by
    rw [correctedPath_length p cp hcp]
    omega
  refine ⟨⟨"doc_id", "Shortest Path",
    pointPlacemarks cp 0 ++ [⟨"path", "Shortest Path", KGeometry.line cp⟩]⟩, ?_⟩
  show (if cp.length = 1 then none
    else some (⟨"doc_id", "Shortest Path",
      pointPlacemarks cp 0 ++ [⟨"path", "Shortest Path", KGeometry.line cp⟩]⟩ : KDocument)) =
    some ⟨"doc_id", "Shortest Path",
      pointPlacemarks cp 0 ++ [⟨"path", "Shortest Path", KGeometry.line cp⟩]⟩
  rw [if_neg hlen]

theorem c9_encoder_gets_two_nodes_witness :
    (([0, 0] : Node) ≠ ([0, 1] : Node) ∧
      find_shortest_path (⟨[[0, 0], [0, 1]], [([0, 0], [0, 1], 1)]⟩ : WGraph Node ℕ)
        [0, 0] [0, 1] = some [[0, 0], [0, 1]] ∧
      (2 ≤ ([[0, 0], [0, 1]] : List Node).length ∧
        ∀ cp, correctedPath [[0, 0], [0, 1]] = some cp →
          ∃ doc, generate_kml_file [[0, 0], [0, 1]] = some doc)) :=
  ⟨by decide, by decide,
    c9_encoder_gets_two_nodes (⟨[[0, 0], [0, 1]], [([0, 0], [0, 1], 1)]⟩ : WGraph Node ℕ)
      [0, 0] [0, 1] [[0, 0], [0, 1]] (by decide) (by decide)⟩

theorem head?_of_append_eq {α : Type} {l l' : List α} {a : α}
    (h : (l ++ l').head? = some a) (hne : l ≠ []) : l.head? = some a := by
  cases l
  · exact absurd rfl hne
  · simpa using h

theorem pathWeight_split {α W : Type} [DecidableEq α] [LinearOrderedAddCommMonoid W]
    (G : WGraph α W) :
    ∀ (l₁ : List α) (x y : α) (l₂ : List α), l₁.getLast? = some x →
      pathWeight G (l₁ ++ y :: l₂) =
        pathWeight G l₁ + wOf G x y + pathWeight G (y :: l₂) := by
  intro l₁
  induction l₁ with
  | nil => intro x y l₂ h; cases h
  | cons a rest ih =>
    intro x y l₂ h
    cases rest with
    | nil =>
      have hx : x = a := by simpa using h.symm
      subst hx
      show wOf G x y + pathWeight G (y :: l₂) =
        pathWeight G [x] + wOf G x y + pathWeight G (y :: l₂)
      rw [show pathWeight G [x] = 0 from rfl, zero_add]
    | cons b rest' =>
      have h2 : (b :: rest').getLast? = some x := by rwa [List.getLast?_cons_cons] at h
      show wOf G a b + pathWeight G ((b :: rest') ++ y :: l₂) =
        (wOf G a b + pathWeight G (b :: rest')) + wOf G x y + pathWeight G (y :: l₂)
      rw [ih x y l₂ h2, add_assoc, add_assoc, add_assoc]

theorem first_flip {α : Type} (P : α → Bool) :
    ∀ (q : List α) (h z : α), q.head? = some h → P h = true →
      q.getLast? = some z → P z = false →
      ∃ q₁ x y q₂, q = (q₁ ++ [x]) ++ y :: q₂ ∧ (∀ a ∈ q₁ ++ [x], P a = true) ∧
        P y = false := by
  intro q
  induction q with
  | nil => intro h z hh _ _ _; cases hh
  | cons a rest ih =>
    intro h z hh hPh hl hPz
    have hha : h = a := by simpa using hh.symm
    subst hha
    cases rest with
    | nil =>
      have hz : z = h := by simpa using hl.symm
      subst hz
      rw [hPh] at hPz
      cases hPz
    | cons b rest' =>
      by_cases hPb : P b = true
      · obtain ⟨q₁, x, y, q₂, heq, hall, hy⟩ :=
          ih b z rfl hPb (by rwa [List.getLast?_cons_cons] at hl) hPz
        refine ⟨h :: q₁, x, y, q₂, ?_, ?_, hy⟩
        · simp only [List.cons_append]
          rw [← heq]
        · intro c hc
          simp only [List.cons_append, List.mem_cons] at hc
          rcases hc with hc | hc
          · subst hc; exact hPh
          · exact hall c (by simpa using hc)
      · refine ⟨[], h, b, rest', by simp, ?_, Bool.not_eq_true _ |>.mp hPb⟩
        intro c hc
        simp only [List.nil_append, List.mem_singleton] at hc
        subst hc
        exact hPh

theorem candidate_lb {α W : Type} [DecidableEq α] [LinearOrderedAddCommMonoid W]
    {G : WGraph α W} (hWF : G.WF) (hnn : ∀ e ∈ G.edges, 0 ≤ e.2.2) {s : α}
    {S : List (DEntry α W)} (inv : DInv G s S) {c : DEntry α W}
    (hc : selectMin (candidates G S) = some c) :
    ∀ q, IsPath G q s c.1 → c.2.1 ≤ pathWeight G q := by
  intro q hq
  obtain ⟨hqne, hqh, hql, hqchain⟩ := hq
  obtain ⟨e0, he0, vw, hvw, hin, hceq⟩ := mem_candidates_iff.mp (selectMin_mem hc)
  have hc1 : inS S c.1 = false := by rw [hceq]; exact hin
  obtain ⟨q₁, x, y, q₂, heq, hall, hy⟩ :=
    first_flip (inS S) q s c.1 hqh inv.has_source hql hc1
  have hx : inS S x = true := hall x (by simp)
  obtain ⟨ex, hex, hex1⟩ := inS_iff.mp hx
  subst heq
  rw [List.chain'_append] at hqchain
  obtain ⟨hch1, hch2, hedge⟩ := hqchain
  have hxy : G.hasEdge x y = true := hedge x (List.getLast?_concat q₁) y rfl
  have hpre : IsPath G (q₁ ++ [x]) s x :=
    ⟨by simp, head?_of_append_eq hqh (by simp), List.getLast?_concat q₁, hch1⟩
  have hlbx : ex.2.1 ≤ pathWeight G (q₁ ++ [x]) := by
    apply inv.lb ex hex
    rw [hex1]
    exact hpre
  obtain ⟨wt, hwt⟩ := hasEdge_exists_adjW hxy
  have hcand : (y, ex.2.1 + wt, ex.2.2 ++ [y]) ∈ candidates G S := by
    apply mem_candidates_iff.mpr
    exact ⟨ex, hex, (y, wt), by rw [hex1]; exact hwt, hy, rfl⟩
  have hmin : c.2.1 ≤ ex.2.1 + wt := selectMin_le _ _ hc _ hcand
  have hwOf : wOf G x y = wt := adjW_wOf hWF.2 hwt
  rw [pathWeight_split G (q₁ ++ [x]) x y q₂ (List.getLast?_concat q₁), hwOf]
  calc c.2.1 ≤ ex.2.1 + wt := hmin
    _ ≤ pathWeight G (q₁ ++ [x]) + wt := add_le_add_right hlbx wt
    _ ≤ pathWeight G (q₁ ++ [x]) + wt + pathWeight G (y :: q₂) :=
        le_add_of_nonneg_right (pathWeight_nonneg hnn _)

theorem dInv_init {α W : Type} [DecidableEq α] [LinearOrderedAddCommMonoid W]
    {G : WGraph α W} (hnn : ∀ e ∈ G.edges, 0 ≤ e.2.2) {s : α} (hs : s ∈ G.nodes) :
    DInv G s [(s, 0, [s])] := by
  constructor
  · simp
  · simp [inS]
  · intro e he
    simp only [List.mem_singleton] at he
    subst he
    exact hs
  · intro e he
    simp only [List.mem_singleton] at he
    subst he
    exact isPath_single G s
  · intro e he
    simp only [List.mem_singleton] at he
    subst he
    rfl
  · intro e he z hz
    simp only [List.mem_singleton] at he
    subst he
    simp only [List.mem_singleton] at hz
    subst hz
    simp [inS]
  · intro e he
    simp only [List.mem_singleton] at he
    subst he
    simp
  · intro e he q hq
    simp only [List.mem_singleton] at he
    subst he
    exact pathWeight_nonneg hnn q

theorem dInv_step {α W : Type} [DecidableEq α] [LinearOrderedAddCommMonoid W]
    {G : WGraph α W} (hWF : G.WF) (hnn : ∀ e ∈ G.edges, 0 ≤ e.2.2) {s : α}
    {S : List (DEntry α W)} {c : DEntry α W} (inv : DInv G s S)
    (hc : selectMin (candidates G S) = some c) : DInv G s (S ++ [c]) := by
  have hlb := candidate_lb hWF hnn inv hc
  obtain ⟨e0, he0, vw, hvw, hin, hceq⟩ := mem_candidates_iff.mp (selectMin_mem hc)
  have hinS_mono : ∀ z, inS S z = true → inS (S ++ [c]) z = true := by
    intro z hz
    rw [inS_append, hz, Bool.true_or]
  have hc1 : c.1 = vw.1 := by rw [hceq]
  have hnewS : inS (S ++ [c]) vw.1 = true := by
    rw [inS_append, Bool.or_eq_true]
    right
    simp [inS, hc1]
  have hpath0 : IsPath G e0.2.2 s e0.1 := inv.path_ok e0 he0
  have hlast0 : e0.2.2.getLast? = some e0.1 := hpath0.2.2.1
  constructor
  · rw [List.map_append]
    rw [List.nodup_append]
    refine ⟨inv.nodup, by simp, ?_⟩
    intro a ha hb
    simp only [List.map_cons, List.map_nil, List.mem_singleton] at hb
    subst hb
    obtain ⟨e, he, he1⟩ := List.mem_map.mp ha
    exact (inS_eq_false.mp (hc1 ▸ hin) e he) he1
  · exact hinS_mono s inv.has_source
  · intro e he
    rcases List.mem_append.mp he with h1 | h1
    · exact inv.mem_nodes e h1
    · simp only [List.mem_singleton] at h1
      subst h1
      rw [hceq]
      exact adjW_mem_nodes hWF hvw
  · intro e he
    rcases List.mem_append.mp he with h1 | h1
    · exact inv.path_ok e h1
    · simp only [List.mem_singleton] at h1
      subst h1
      rw [hceq]
      exact isPath_concat hpath0 (adjW_hasEdge hvw)
  · intro e he
    rcases List.mem_append.mp he with h1 | h1
    · exact inv.path_wt e h1
    · simp only [List.mem_singleton] at h1
      subst h1
      rw [hceq]
      show pathWeight G (e0.2.2 ++ [vw.1]) = e0.2.1 + vw.2
      rw [pathWeight_concat G e0.2.2 e0.1 vw.1 hlast0, inv.path_wt e0 he0,
        adjW_wOf hWF.2 hvw]
  · intro e he z hz
    rcases List.mem_append.mp he with h1 | h1
    · exact hinS_mono z (inv.path_sub e h1 z hz)
    · simp only [List.mem_singleton] at h1
      subst h1
      rw [hceq] at hz
      simp only [List.mem_append, List.mem_singleton] at hz
      rcases hz with hz | hz
      · exact hinS_mono z (inv.path_sub e0 he0 z hz)
      · subst hz
        exact hnewS
  · intro e he
    rcases List.mem_append.mp he with h1 | h1
    · exact inv.path_nodup e h1
    · simp only [List.mem_singleton] at h1
      subst h1
      rw [hceq]
      show (e0.2.2 ++ [vw.1]).Nodup
      rw [List.nodup_append]
      refine ⟨inv.path_nodup e0 he0, by simp, ?_⟩
      intro a ha hb
      simp only [List.mem_singleton] at hb
      subst hb
      have hsub := inv.path_sub e0 he0 vw.1 ha
      rw [hin] at hsub
      cases hsub
  · intro e he q hq
    rcases List.mem_append.mp he with h1 | h1
    · exact inv.lb e h1 q hq
    · simp only [List.mem_singleton] at h1
      subst h1
      exact hlb q hq

theorem dInv_loop {α W : Type} [DecidableEq α] [LinearOrderedAddCommMonoid W]
    {G : WGraph α W} (hWF : G.WF) (hnn : ∀ e ∈ G.edges, 0 ≤ e.2.2) {s : α} :
    ∀ (n : ℕ) (S : List (DEntry α W)), DInv G s S → DInv G s (dijkstraLoop G n S) := by
  intro n
  induction n with
  | zero => intro S h; exact h
  | succ n ih =>
    intro S h
    rw [dijkstraLoop]
    rcases hm : selectMin (candidates G S) with _ | c
    · exact h
    · exact ih _ (dInv_step hWF hnn h hm)

theorem nodup_subset_length_le {α : Type} [DecidableEq α] {l₁ l₂ : List α}
    (h : l₁.Nodup) (hsub : ∀ a ∈ l₁, a ∈ l₂) : l₁.length ≤ l₂.length := by
  calc l₁.length = l₁.toFinset.card := (List.toFinset_card_of_nodup h).symm
    _ ≤ l₂.toFinset.card := Finset.card_le_card (by
        intro a ha
        rw [List.mem_toFinset] at ha ⊢
        exact hsub a ha)
    _ ≤ l₂.length := l₂.toFinset_card_le

theorem settled_le_nodes {α W : Type} [DecidableEq α] [LinearOrderedAddCommMonoid W]
    {G : WGraph α W} {s : α} {S : List (DEntry α W)} (inv : DInv G s S) :
    S.length ≤ G.nodes.length := by
  have h1 : (S.map fun e => e.1).length ≤ G.nodes.length := by
    apply nodup_subset_length_le inv.nodup
    intro a ha
    obtain ⟨e, he, he1⟩ := List.mem_map.mp ha
    exact he1 ▸ inv.mem_nodes e he
  simpa using h1

theorem loop_saturates {α W : Type} [DecidableEq α] [LinearOrderedAddCommMonoid W]
    {G : WGraph α W} (hWF : G.WF) (hnn : ∀ e ∈ G.edges, 0 ≤ e.2.2) {s : α} :
    ∀ (n : ℕ) (S : List (DEntry α W)), DInv G s S →
      G.nodes.length + 1 ≤ n + S.length →
      candidates G (dijkstraLoop G n S) = [] := by
  intro n
  induction n with
  | zero =>
    intro S inv hn
    have := settled_le_nodes inv
    omega
  | succ n ih =>
    intro S inv hn
    rw [dijkstraLoop]
    rcases hm : selectMin (candidates G S) with _ | c
    · exact selectMin_eq_none.mp hm
    · apply ih _ (dInv_step hWF hnn inv hm)
      rw [List.length_append]
      simp only [List.length_singleton]
      omega

theorem saturated_closed {α W : Type} [DecidableEq α] [LinearOrderedAddCommMonoid W]
    {G : WGraph α W} {S : List (DEntry α W)} (hcand : candidates G S = []) :
    ∀ a b, inS S a = true → G.hasEdge a b = true → inS S b = true := by
  intro a b ha hab
  by_contra hb
  have hb' : inS S b = false := Bool.not_eq_true _ |>.mp hb
  obtain ⟨ea, hea, hea1⟩ := inS_iff.mp ha
  obtain ⟨wt, hwt⟩ := hasEdge_exists_adjW hab
  have hmem : (b, ea.2.1 + wt, ea.2.2 ++ [b]) ∈ candidates G S :=
    mem_candidates_iff.mpr ⟨ea, hea, (b, wt), by rw [hea1]; exact hwt, hb', rfl⟩
  rw [hcand] at hmem
  exact absurd hmem (List.not_mem_nil _)

theorem saturated_reach {α W : Type} [DecidableEq α] [LinearOrderedAddCommMonoid W]
    {G : WGraph α W} {S : List (DEntry α W)} (hcand : candidates G S = []) :
    ∀ (q : List α), List.Chain' (fun a b => G.hasEdge a b = true) q →
      ∀ h, q.head? = some h → inS S h = true → ∀ z ∈ q, inS S z = true := by
  intro q
  induction q with
  | nil => intro _ h hh; cases hh
  | cons a rest ih =>
    intro hchain h hh hS z hz
    have hha : h = a := by simpa using hh.symm
    subst hha
    rcases List.mem_cons.mp hz with h1 | h1
    · subst h1; exact hS
    · cases rest with
      | nil => exact absurd h1 (List.not_mem_nil _)
      | cons b rest' =>
        obtain ⟨hab, hch⟩ := List.chain'_cons.mp hchain
        exact ih hch b rfl (saturated_closed hcand h b hS hab) z h1

/-- C2 (confirmed): for every well-formed graph with non-negative edge
weights and mutually reachable member source and target, `find_shortest_path`
returns a path that starts at the source, ends at the target, follows
existing edges, is simple, and whose total edge-weight sum is minimal among
all simple paths connecting them (it attains the minimum, and no simple path
weighs less). -/
theorem c2_shortest_path_optimal {W : Type} [LinearOrderedAddCommMonoid W]
    (G : WGraph Node W) (hWF : G.WF) (hnn : ∀ e ∈ G.edges, 0 ≤ e.2.2)
    (s t : Node) (hs : s ∈ G.nodes) (ht : t ∈ G.nodes) (hr : Reachable G s t) :
    ∃ p, find_shortest_path G s t = some p ∧ p.head? = some s ∧
      p.getLast? = some t ∧ IsSimplePath G p s t ∧
      ∀ q, IsSimplePath G q s t → pathWeight G p ≤ pathWeight G q := by
  have invF : DInv G s (dijkstraLoop G G.nodes.length [(s, 0, [s])]) :=
    dInv_loop hWF hnn _ _ (dInv_init hnn hs)
  have hsat : candidates G (dijkstraLoop G G.nodes.length [(s, 0, [s])]) = [] := by
    apply loop_saturates hWF hnn _ _ (dInv_init hnn hs)
    simp
  obtain ⟨q0, hq0ne, hq0h, hq0l, hq0c⟩ := hr
  have htS : inS (dijkstraLoop G G.nodes.length [(s, 0, [s])]) t = true := by
    refine saturated_reach hsat q0 hq0c s hq0h invF.has_source t ?_
    exact List.mem_of_mem_getLast? hq0l
  obtain ⟨et, het, het1⟩ := inS_iff.mp htS
  rcases hf : (dijkstraLoop G G.nodes.length [(s, 0, [s])]).find?
      (fun e => decide (e.1 = t)) with _ | e
  · exfalso
    have := List.find?_eq_none.mp hf et het
    simp only [decide_eq_true_eq] at this
    exact this het1
  · obtain ⟨hmem, het'⟩ := find?_entry hf
    have hpath : IsPath G e.2.2 s t := by
      have := invF.path_ok e hmem
      rwa [het'] at this
    refine ⟨e.2.2, ?_, hpath.2.1, hpath.2.2.1, ⟨hpath, invF.path_nodup e hmem⟩, ?_⟩
    · unfold find_shortest_path dijkstra
      rw [hf]
      rfl
    · intro q hq
      have hlb : e.2.1 ≤ pathWeight G q := by
        apply invF.lb e hmem
        rw [het']
        exact hq.1
      rw [invF.path_wt e hmem]
      exact hlb

theorem c2_shortest_path_optimal_witness :
    ((⟨[[0, 0], [0, 1], [0, 2]],
        [([0, 0], [0, 1], 1), ([0, 1], [0, 2], 1), ([0, 0], [0, 2], 5)]⟩ :
          WGraph Node ℕ).WF ∧
      (∀ e ∈ (⟨[[0, 0], [0, 1], [0, 2]],
        [([0, 0], [0, 1], 1), ([0, 1], [0, 2], 1), ([0, 0], [0, 2], 5)]⟩ :
          WGraph Node ℕ).edges, 0 ≤ e.2.2) ∧
      Reachable (⟨[[0, 0], [0, 1], [0, 2]],
        [([0, 0], [0, 1], 1), ([0, 1], [0, 2], 1), ([0, 0], [0, 2], 5)]⟩ :
          WGraph Node ℕ) [0, 0] [0, 2] ∧
      ∃ p, find_shortest_path (⟨[[0, 0], [0, 1], [0, 2]],
          [([0, 0], [0, 1], 1), ([0, 1], [0, 2], 1), ([0, 0], [0, 2], 5)]⟩ :
            WGraph Node ℕ) [0, 0] [0, 2] = some p ∧
        p.head? = some [0, 0] ∧ p.getLast? = some [0, 2] ∧
        IsSimplePath (⟨[[0, 0], [0, 1], [0, 2]],
          [([0, 0], [0, 1], 1), ([0, 1], [0, 2], 1), ([0, 0], [0, 2], 5)]⟩ :
            WGraph Node ℕ) p [0, 0] [0, 2] ∧
        ∀ q, IsSimplePath (⟨[[0, 0], [0, 1], [0, 2]],
          [([0, 0], [0, 1], 1), ([0, 1], [0, 2], 1), ([0, 0], [0, 2], 5)]⟩ :
            WGraph Node ℕ) q [0, 0] [0, 2] →
          pathWeight (⟨[[0, 0], [0, 1], [0, 2]],
            [([0, 0], [0, 1], 1), ([0, 1], [0, 2], 1), ([0, 0], [0, 2], 5)]⟩ :
              WGraph Node ℕ) p ≤ pathWeight (⟨[[0, 0], [0, 1], [0, 2]],
            [([0, 0], [0, 1], 1), ([0, 1], [0, 2], 1), ([0, 0], [0, 2], 5)]⟩ :
              WGraph Node ℕ) q) :=
  ⟨by decide, by decide,
    ⟨[[0, 0], [0, 2]], by decide, by decide, by decide, List.chain'_pair.mpr (by decide)⟩,
    c2_shortest_path_optimal
      (⟨[[0, 0], [0, 1], [0, 2]],
        [([0, 0], [0, 1], 1), ([0, 1], [0, 2], 1), ([0, 0], [0, 2], 5)]⟩ : WGraph Node ℕ)
      (by decide) (by decide) [0, 0] [0, 2] (by decide) (by decide)
      ⟨[[0, 0], [0, 2]], by decide, by decide, by decide, List.chain'_pair.mpr (by decide)⟩⟩

/-! ## KML round trip (C5) -/

theorem swapLatLon_reverse {n m : Node} (h : swapLatLon n = some m) :
    m.reverse = n := by
  match n, h with
  | [a, b], h =>
    rw [swapLatLon] at h
    cases h
    rfl

theorem correctedPath_reverse :
    ∀ (p cp : List Node), correctedPath p = some cp → cp.map List.reverse = p := by
  intro p
  induction p with
  | nil => intro cp h; cases h; rfl
  | cons n rest ih =>
    intro cp h
    rw [correctedPath] at h
    rcases h1 : swapLatLon n with _ | m <;> rw [h1] at h
    · cases h
    · rcases h2 : correctedPath rest with _ | ms <;> rw [h2] at h
      · cases h
      · cases h
        rw [List.map_cons, swapLatLon_reverse h1, ih ms h2]

theorem pointPlacemarks_no_line :
    ∀ (l : List Node) (i : ℕ),
      (pointPlacemarks l i).filterMap (fun pm =>
        match pm.geometry with
        | .line cs => some cs
        | .point _ => none) = [] := by
  intro l
  induction l with
  | nil => intro i; rfl
  | cons c rest ih =>
    intro i
    rw [pointPlacemarks, List.filterMap_cons]
    exact ih (i + 1)

/-- C5 (confirmed): for every path the encoder successfully emits as a
geometry document, the document's line feature carries exactly the path's
coordinates reordered from (lat, lon) to (lon, lat), in order and with the
exact (unrounded) values, and decoding those coordinates and swapping each
pair back reproduces the original path exactly. -/
theorem c5_kml_round_trip (p : List Node) (doc : KDocument)
    (h : generate_kml_file p = some doc) :
    ∃ cs, lineCoordsOf doc = some cs ∧ correctedPath p = some cs ∧
      cs.map List.reverse = p := by
  unfold generate_kml_file at h
  rcases h1 : correctedPath p with _ | cp <;> rw [h1] at h
  · cases h
  · have h' : (if cp.length = 1 then none
        else some (⟨"doc_id", "Shortest Path",
          pointPlacemarks cp 0 ++ [⟨"path", "Shortest Path", KGeometry.line cp⟩]⟩ :
            KDocument)) = some doc := h
    by_cases hlen : cp.length = 1
    · rw [if_pos hlen] at h'
      cases h'
    · rw [if_neg hlen] at h'
      cases h'
      refine ⟨cp, ?_, rfl, correctedPath_reverse p cp h1⟩
      unfold lineCoordsOf
      rw [List.filterMap_append, pointPlacemarks_no_line]
      rfl

theorem c5_kml_round_trip_witness :
    ∃ doc, generate_kml_file [[1, 2], [3, 4]] = some doc ∧
      ∃ cs, lineCoordsOf doc = some cs ∧ correctedPath [[1, 2], [3, 4]] = some cs ∧
        cs.map List.reverse = [[1, 2], [3, 4]] := by
  refine ⟨⟨"doc_id", "Shortest Path",
    pointPlacemarks [[2, 1], [4, 3]] 0 ++
      [⟨"path", "Shortest Path", KGeometry.line [[2, 1], [4, 3]]⟩]⟩, ?_, ?_⟩
  · rfl
  · exact c5_kml_round_trip [[1, 2], [3, 4]] _ rfl

/-! ## Handler behavior (C6, C10) -/

/-- C6, amended (the claim as stated is refuted by `c6_counterexample`): for
every query whose raw start and end points are exactly equal *and lie within
the valid coordinate ranges*, the handler rejects with the
identical-endpoints failure before snapping — neither the nearest-neighbor
query nor the shortest-path search is reached — and no trivial one-node path
is returned.  Equal but out-of-range points are instead caught by the earlier
range validation. -/
theorem c6_identical_endpoints_rejected {W : Type} [LinearOrderedAddCommMonoid W]
    (st : ServerState W) (body : ReqBody) (so eo : PointObj)
    (jsl jso jel jeo : JVal) (lat lon : ℚ)
    (hso : body.start? = some so) (heo : body.end? = some eo)
    (h1 : so.lat? = some jsl) (h2 : so.lon? = some jso)
    (h3 : eo.lat? = some jel) (h4 : eo.lon? = some jeo)
    (f1 : pyFloatJ jsl = some lat) (f2 : pyFloatJ jso = some lon)
    (f3 : pyFloatJ jel = some lat) (f4 : pyFloatJ jeo = some lon)
    (hlat : -90 ≤ lat ∧ lat ≤ 90) (hlon : -180 ≤ lon ∧ lon ≤ 180) :
    find_path st body = .errSamePoint := by
  unfold find_path
  simp only [hso, h1, f1, h2, f2, heo, h3, f3, h4, f4]
  unfold findPathValidated
  rw [if_neg (by push_neg; exact ⟨hlat, hlon⟩), if_neg (by push_neg; exact ⟨hlat, hlon⟩),
    if_pos rfl]

theorem c6_identical_endpoints_rejected_witness :
    find_path (⟨⟨[], []⟩, []⟩ : ServerState ℕ)
        ⟨some ⟨some (.num 50), some (.num 7)⟩, some ⟨some (.num 50), some (.num 7)⟩⟩ =
      .errSamePoint :=
  c6_identical_endpoints_rejected (⟨⟨[], []⟩, []⟩ : ServerState ℕ)
    ⟨some ⟨some (.num 50), some (.num 7)⟩, some ⟨some (.num 50), some (.num 7)⟩⟩
    ⟨some (.num 50), some (.num 7)⟩ ⟨some (.num 50), some (.num 7)⟩
    (.num 50) (.num 7) (.num 50) (.num 7) 50 7 rfl rfl rfl rfl rfl rfl
    rfl rfl rfl rfl (by norm_num) (by norm_num)

/-- C6 counterexample: raw start and end points exactly equal but out of
range are rejected by the range validation, not with the identical-endpoints
failure (and a fortiori not before it). -/
theorem c6_counterexample :
    find_path (⟨⟨[], []⟩, []⟩ : ServerState ℕ)
        ⟨some ⟨some (.num 100), some (.num 0)⟩, some ⟨some (.num 100), some (.num 0)⟩⟩ =
      .errInvalidStart ∧ Response.errInvalidStart ≠ Response.errSamePoint := by
  constructor
  · show findPathValidated (⟨⟨[], []⟩, []⟩ : ServerState ℕ) 100 0 100 0 = .errInvalidStart
    unfold findPathValidated
    rw [if_pos (by norm_num)]
  · intro h
    cases h

/-- C10, amended (the claim as stated is refuted by `c10_counterexample`):
when the JSON body lacks one of the required fields and every field the
handler extracts *before* it (order: start.lat, start.lon, end.lat, end.lon)
is present and parses as a float, the handler returns the structured error
naming the missing key, and neither snapping nor the search is invoked; a
present field whose value is not parseable as a float is not converted into
this structured failure — the `ValueError` escapes the handler instead. -/
theorem c10_missing_fields {W : Type} [LinearOrderedAddCommMonoid W]
    (st : ServerState W) :
    (∀ body : ReqBody, body.start? = none → find_path st body = .errMissing "start") ∧
    (∀ (body : ReqBody) so, body.start? = some so → so.lat? = none →
      find_path st body = .errMissing "lat") ∧
    (∀ (body : ReqBody) so jsl lat, body.start? = some so → so.lat? = some jsl →
      pyFloatJ jsl = some lat → so.lon? = none →
      find_path st body = .errMissing "lon") ∧
    (∀ (body : ReqBody) so jsl jso lat lon, body.start? = some so →
      so.lat? = some jsl → pyFloatJ jsl = some lat → so.lon? = some jso →
      pyFloatJ jso = some lon → body.end? = none →
      find_path st body = .errMissing "end") ∧
    (∀ (body : ReqBody) so eo jsl jso lat lon, body.start? = some so →
      so.lat? = some jsl → pyFloatJ jsl = some lat → so.lon? = some jso →
      pyFloatJ jso = some lon → body.end? = some eo → eo.lat? = none →
      find_path st body = .errMissing "lat") ∧
    (∀ (body : ReqBody) so eo jsl jso jel lat lon lat2, body.start? = some so →
      so.lat? = some jsl → pyFloatJ jsl = some lat → so.lon? = some jso →
      pyFloatJ jso = some lon → body.end? = some eo → eo.lat? = some jel →
      pyFloatJ jel = some lat2 → eo.lon? = none →
      find_path st body = .errMissing "lon") ∧
    (∀ (body : ReqBody) so jsl, body.start? = some so → so.lat? = some jsl →
      pyFloatJ jsl = none → find_path st body = .valueError) := by
  refine ⟨?_, ?_, ?_, ?_, ?_, ?_, ?_⟩
  · intro body h
    unfold find_path
    simp only [h]
  · intro body so h h1
    unfold find_path
    simp only [h, h1]
  · intro body so jsl lat h h1 f1 h2
    unfold find_path
    simp only [h, h1, f1, h2]
  · intro body so jsl jso lat lon h h1 f1 h2 f2 he
    unfold find_path
    simp only [h, h1, f1, h2, f2, he]
  · intro body so eo jsl jso lat lon h h1 f1 h2 f2 he h3
    unfold find_path
    simp only [h, h1, f1, h2, f2, he, h3]
  · intro body so eo jsl jso jel lat lon lat2 h h1 f1 h2 f2 he h3 f3 h4
    unfold find_path
    simp only [h, h1, f1, h2, f2, he, h3, f3, h4]
  · intro body so jsl h h1 f1
    unfold find_path
    simp only [h, h1, f1]

theorem c10_missing_fields_witness :
    (((⟨none, none⟩ : ReqBody).start? = none ∧
        find_path (⟨⟨[], []⟩, []⟩ : ServerState ℕ) ⟨none, none⟩ = .errMissing "start") ∧
      ((⟨some ⟨some (.str "abc"), none⟩, none⟩ : ReqBody).start? =
          some ⟨some (.str "abc"), none⟩ ∧
        pyFloatJ (.str "abc") = none ∧
        find_path (⟨⟨[], []⟩, []⟩ : ServerState ℕ)
          ⟨some ⟨some (.str "abc"), none⟩, none⟩ = .valueError)) :=
  ⟨⟨rfl, (c10_missing_fields (⟨⟨[], []⟩, []⟩ : ServerState ℕ)).1 ⟨none, none⟩ rfl⟩,
    ⟨rfl, by decide,
      (c10_missing_fields (⟨⟨[], []⟩, []⟩ : ServerState ℕ)).2.2.2.2.2.2
        ⟨some ⟨some (.str "abc"), none⟩, none⟩ ⟨some (.str "abc"), none⟩
        (.str "abc") rfl rfl (by decide)⟩⟩

/-- C10 counterexample: the body `{start: {lat: "abc"}}` lacks the required
fields `lon` and `end`, yet the handler does not return a structured
missing-key error: the `float` conversion of `start.lat` raises first and the
`ValueError` escapes. -/
theorem c10_counterexample :
    find_path (⟨⟨[], []⟩, []⟩ : ServerState ℕ)
        ⟨some ⟨some (.str "abc"), none⟩, none⟩ = .valueError ∧
      ∀ k, Response.valueError ≠ Response.errMissing k := by
  constructor
  · decide
  · intro k h
    cases h

/-! ## The nearest-neighbor metric is not haversine (C1 counterexample) -/

theorem haversineM_equator (l1 l2 : ℚ) :
    haversineM (0, l1) (0, l2) =
      2 * earthRadiusM * Real.arcsin
        (Real.sqrt (Real.sin ((deg2rad l2 - deg2rad l1) / 2) ^ 2)) := by
  unfold haversineM deg2rad
  norm_num

theorem earthRadius_pos : 0 < earthRadiusM := by
  unfold earthRadiusM
  norm_num

theorem hav_equator_dist (l1 l2 : ℚ) (x : ℝ) (hx0 : 0 ≤ x) (hxπ : x ≤ Real.pi)
    (hx : Real.sin ((deg2rad l2 - deg2rad l1) / 2) ^ 2 = Real.sin x ^ 2) :
    haversineM (0, l1) (0, l2) = 2 * earthRadiusM * Real.arcsin (Real.sin x) := by
  rw [haversineM_equator, hx, Real.sqrt_sq_eq_abs,
    abs_of_nonneg (Real.sin_nonneg_of_nonneg_of_le_pi hx0 hxπ)]

/-- C1 counterexample: with the snapshot `[(0, 170), (0, −179)]` and the query
point `(0, 179)` near the antimeridian, `find_closest_point` returns
`(0, 170)` — the Euclidean argmin in raw coordinates — although the haversine
great-circle distance (the `calculate_distance` metric of the program) from
the query to `(0, −179)` is strictly smaller, so the code does not return the
node minimising the claimed DistanceMetric. -/
theorem c1_not_haversine_counterexample :
    find_closest_point [[0, 170], [0, -179]] [0, 179] = some [0, 170] ∧
      calculate_distance [0, 179] [0, -179] < calculate_distance [0, 179] [0, 170] := by
  constructor
  · norm_num [find_closest_point, fcpGo, sqDist]
  · show haversineM (0, 179) (0, -179) < haversineM (0, 179) (0, 170)
    have hπ := Real.pi_pos
    have h1 : haversineM (0, 179) (0, -179) =
        2 * earthRadiusM * Real.arcsin (Real.sin (Real.pi / 180)) := by
      apply hav_equator_dist 179 (-179) (Real.pi / 180) (by positivity)
        (by nlinarith)
      have harg : (deg2rad (-179) - deg2rad 179) / 2 = -(Real.pi - Real.pi / 180) := by
        unfold deg2rad
        push_cast
        ring
      rw [harg, Real.sin_neg, neg_sq, Real.sin_pi_sub]
    have h2 : haversineM (0, 179) (0, 170) =
        2 * earthRadiusM * Real.arcsin (Real.sin (Real.pi / 40)) := by
      apply hav_equator_dist 179 170 (Real.pi / 40) (by positivity)
        (by nlinarith)
      have harg : (deg2rad 170 - deg2rad 179) / 2 = -(Real.pi / 40) := by
        unfold deg2rad
        push_cast
        ring
      rw [harg, Real.sin_neg, neg_sq]
    rw [h1, h2]
    have hsin : Real.sin (Real.pi / 180) < Real.sin (Real.pi / 40) := by
      apply Real.sin_lt_sin_of_lt_of_le_pi_div_two (by nlinarith) (by nlinarith)
      nlinarith
    have harc : Real.arcsin (Real.sin (Real.pi / 180)) <
        Real.arcsin (Real.sin (Real.pi / 40)) :=
      Real.strictMonoOn_arcsin ⟨by nlinarith [Real.neg_one_le_sin (Real.pi / 180)],
          Real.sin_le_one _⟩
        ⟨by nlinarith [Real.neg_one_le_sin (Real.pi / 40)], Real.sin_le_one _⟩ hsin
    have h2R : (0 : ℝ) < 2 * earthRadiusM := by
      have := earthRadius_pos
      linarith
    exact mul_lt_mul_of_pos_left harc h2R
